import Mathlib

/-!
# Pathfinder: target expansion, extension expansion, response filter, rate period

A shallow embedding of `src/main.go` (package `main` of cyberseclife/Pathfinder).

Modelling conventions.

* A Go `string` is the list of its characters (`GoString`).  Every string
  operation the program uses (`strings.Contains`, `strings.ReplaceAll`,
  `strings.HasPrefix`, `strings.TrimPrefix`, `strings.TrimSuffix`,
  `strings.Split`, `strings.TrimSpace`, concatenation) is given here by its
  documented behaviour in the Go standard library.
* A Go `map[string][]string` is an association list.  Ranging over a map visits
  the keys in an order that the language leaves unspecified and that may change
  from one `range` statement to the next; the order used by each call of
  `generateTargets` is supplied by an *iteration oracle* `σ`, a function from
  the position of the call in the recursion tree (the indices of the words
  chosen on the way down) to the order in which that call visits the keys.
* `generateTargets` is recursive without a bound in the source; the embedding
  takes a recursion budget and returns `none` when the budget is exhausted.
* `int`, `int64` values are only compared here, or divided with positive
  operands, so they are integers (`Int`) without wrap-around.
-/

namespace Pathfinder

/-- A Go string, as the list of its characters. -/
abbrev GoString := List Char

/-- A Go `map[string][]string` (the loaded word lists), as an association list. -/
abbrev WordlistData := List (GoString × List GoString)

/-! ## The `strings` functions used by the program -/

/-- `strings.HasPrefix(s, prefix)`. -/
def HasPrefix (s pre : GoString) : Bool := pre.isPrefixOf s

/-- `strings.HasSuffix(s, suffix)`. -/
def HasSuffix (s suf : GoString) : Bool := suf.reverse.isPrefixOf s.reverse

/-- `strings.Contains(s, substr)`: `substr` starts at some position of `s`. -/
def Contains : GoString → GoString → Bool
  | [], substr => substr.isPrefixOf []
  | c :: cs, substr => substr.isPrefixOf (c :: cs) || Contains cs substr

/-- The scan of `strings.Replace` for a non-empty `old`: at every position,
from left to right, an instance of `old` that starts there is replaced by `new`
and the scan resumes behind it; any other character is copied.  The first
argument bounds the number of steps. -/
def replaceLoop (old new : GoString) : Nat → GoString → GoString
  | 0, s => s
  | _ + 1, [] => []
  | n + 1, c :: cs =>
    if old.isPrefixOf (c :: cs) then new ++ replaceLoop old new n ((c :: cs).drop old.length)
    else c :: replaceLoop old new n cs

/-- `strings.ReplaceAll(s, old, new)`: all non-overlapping instances of `old`
replaced by `new`.  For an empty `old` the replacement is inserted before
every character and at the end. -/
def ReplaceAll (s old new : GoString) : GoString :=
  if old = [] then new ++ s.flatMap (fun c => c :: new)
  else replaceLoop old new s.length s

/-- `strings.TrimPrefix(s, prefix)`. -/
def TrimPrefix (s pre : GoString) : GoString :=
  if HasPrefix s pre then s.drop pre.length else s

/-- `strings.TrimSuffix(s, suffix)`. -/
def TrimSuffix (s suf : GoString) : GoString :=
  if HasSuffix s suf then s.take (s.length - suf.length) else s

/-- `unicode.IsSpace`. -/
def isSpace (c : Char) : Bool :=
  let n := c.toNat
  n = 9 || n = 10 || n = 11 || n = 12 || n = 13 || n = 32 || n = 133 || n = 160 ||
  n = 5760 || (8192 ≤ n && n ≤ 8202) || n = 8232 || n = 8233 || n = 8239 || n = 8287 ||
  n = 12288

/-- `strings.TrimSpace(s)`. -/
def TrimSpace (s : GoString) : GoString :=
  ((s.dropWhile isSpace).reverse.dropWhile isSpace).reverse

/-- `strings.Split(s, sep)` for a one-character separator: the pieces between
the separators, one more than there are separators. -/
def Split (sep : Char) : GoString → List GoString
  | [] => [[]]
  | c :: cs =>
    if c = sep then [] :: Split sep cs
    else match Split sep cs with
      | [] => [[c]]
      | piece :: pieces => (c :: piece) :: pieces

/-! ## `generateTargets` (main.go, lines 146-170) -/

/-- The loop of lines 149-154: the keys are visited in the order `order`; the
first one contained in the template is stored in `foundMarker` and ends the
loop; `foundMarker` keeps its zero value `""` when the loop runs to its end. -/
def findMarker (template : GoString) : List GoString → GoString
  | [] => []
  | marker :: rest => if Contains template marker then marker else findMarker template rest

/-- The map read `markers[foundMarker]`: the zero value (nil slice) for a missing key. -/
def wordsOf (markers : WordlistData) (foundMarker : GoString) : List GoString :=
  (markers.lookup foundMarker).getD []

/-- The loop of lines 163-167 over `words`, with `call i word` standing for the
recursive call made for the word of index `i`; `results` accumulates. -/
def appendLoop (call : Nat → GoString → Option (List GoString)) :
    Nat → List GoString → List GoString → Option (List GoString)
  | _, [], results => some results
  | i, word :: rest, results =>
    match call i word with
    | none => none
    | some subResults => appendLoop call (i + 1) rest (results ++ subResults)

/-- `generateTargets(template, markers)`.  `σ` is the iteration oracle: `σ []`
is the order in which this call ranges over `markers`, and the call made for
the word of index `i` runs under `fun p => σ (i :: p)`.  The first argument is
the recursion budget; `none` means it was exhausted. -/
def generateTargets (markers : WordlistData) :
    Nat → (List Nat → List GoString) → GoString → Option (List GoString)
  | 0, _, _ => none
  | fuel + 1, σ, template =>
    let foundMarker := findMarker template (σ [])
    if foundMarker = [] then some [template]
    else
      let words := wordsOf markers foundMarker
      appendLoop
        (fun i word =>
          generateTargets markers fuel (fun p => σ (i :: p))
            (ReplaceAll template foundMarker word))
        0 words []

/-- The keys of the map. -/
def keys (markers : WordlistData) : List GoString := markers.map Prod.fst

/-- An admissible iteration oracle: every `range` visits each key once. -/
def IterOrder (markers : WordlistData) (σ : List Nat → List GoString) : Prop :=
  ∀ p, (σ p).Perm (keys markers)

/-- The oracle that visits the keys in the same order `order` at every call. -/
def constOrder (order : List GoString) : List Nat → List GoString := fun _ => order

/-! ## `parseStringList` (lines 451-464) -/

/-- The loop of lines 457-462. -/
def parseStringList.loop : List GoString → List GoString → List GoString
  | [], result => result
  | p :: parts, result =>
    let p := TrimSpace p
    if p ≠ [] then parseStringList.loop parts (result ++ [p])
    else parseStringList.loop parts result

/-- `parseStringList(s)`. -/
def parseStringList (s : GoString) : List GoString :=
  if s = [] then []
  else parseStringList.loop (Split ',' s) []

/-! ## `runDirectoryEnum`: building the targets (lines 300-337) -/

/-- Lines 300-306: some key of the word-list map is contained in the URL. -/
def hasMarkers (targetURL : GoString) (wordlistData : WordlistData) : Bool :=
  (keys wordlistData).any (fun marker => Contains targetURL marker)

/-- Lines 312-314: `"http://"` is put in front of a URL that does not start with `"http"`. -/
def ensureScheme (targetURL : GoString) : GoString :=
  if !HasPrefix targetURL "http".toList then "http://".toList ++ targetURL else targetURL

/-- Lines 312-315: the URL handed to the compatibility path. -/
def normalizeURL (targetURL : GoString) : GoString :=
  TrimSuffix (ensureScheme targetURL) "/".toList

/-- Lines 318-320: one base target `fmt.Sprintf("%s/%s", targetURL, word)` per word. -/
def compatTargets (targetURL : GoString) (lines : List GoString) : List GoString :=
  lines.foldl (fun baseTargets word => baseTargets ++ [targetURL ++ "/".toList ++ word]) []

/-- Lines 308-325: the base targets.  `none` when the run does not reach the
worker pool (`os.Exit(1)`, or an expansion that exhausts the budget). -/
def baseTargets (fuel : Nat) (σ : List Nat → List GoString) (targetURL : GoString)
    (wordlistData : WordlistData) : Option (List GoString) :=
  if hasMarkers targetURL wordlistData then
    generateTargets wordlistData fuel σ targetURL
  else
    match wordlistData.lookup "WL1".toList with
    | some lines => some (compatTargets (normalizeURL targetURL) lines)
    | none => none

/-- Lines 327-337: one target `fmt.Sprintf("%s.%s", tgt, ext)` per base target
and extension, after `strings.TrimPrefix(ext, ".")`. -/
def finalTargets (baseTargets extensions : List GoString) : List GoString :=
  if extensions.length > 0 then
    baseTargets.foldl
      (fun finalTargets tgt =>
        extensions.foldl
          (fun finalTargets ext =>
            finalTargets ++ [tgt ++ ".".toList ++ TrimPrefix ext ".".toList])
          finalTargets)
      []
  else baseTargets

/-! ## The response filter of the directory worker (lines 377-387) -/

/-- `containsInt(list, item)` (lines 481-488). -/
def containsInt : List Int → Int → Bool
  | [], _ => false
  | v :: list, item => if v = item then true else containsInt list item

/-- `containsInt64(list, item)` (lines 490-497); `int64(v)` keeps the value of `v`. -/
def containsInt64 : List Int → Int → Bool
  | [], _ => false
  | v :: list, item => if v = item then true else containsInt64 list item

/-- Lines 381-387: `true` when the worker prints the `[+] Found` line for a
response with status `code` and content length `size`, `false` when one of the
three `continue` statements is taken. -/
def reportsFound (matchCodes filterCodes filterSizes : List Int) (code size : Int) : Bool :=
  if !containsInt matchCodes code then false
  else if filterCodes.length > 0 && containsInt filterCodes code then false
  else if filterSizes.length > 0 && containsInt64 filterSizes size then false
  else true

/-! ## The period of the ticker of the feed loop (lines 266 and 393) -/

/-- The value of `time.Second`, in nanoseconds. -/
def timeSecond : Int := 1000000000

/-- The period `time.Second / time.Duration(rateLimit)`: `int64` division, which
truncates towards zero. -/
def tickerPeriod (rateLimit : Int) : Int := Int.tdiv timeSecond rateLimit

/-! ## The expansion as the specification words it -/

/-- The entries of the mapping whose marker occurs in the template ("the
markers used"). -/
def usedMarkers (markers : WordlistData) (template : GoString) : WordlistData :=
  markers.filter (fun e => Contains template e.1)

/-- The number of targets the specification promises: the product of the
lengths of the word lists of the markers used. -/
def expansionCount (markers : WordlistData) (template : GoString) : Nat :=
  ((usedMarkers markers template).map (fun e => e.2.length)).prod

/-- The Cartesian product of the word lists of the given entries: every way of
choosing one word per marker, the words of a marker taken in list order. -/
def choices : WordlistData → List (List (GoString × GoString))
  | [] => [[]]
  | (m, ws) :: rest => ws.flatMap (fun w => (choices rest).map (fun ch => (m, w) :: ch))

/-- The template with every marker of a choice replaced by the chosen word. -/
def substitute (template : GoString) : List (GoString × GoString) → GoString
  | [] => template
  | (m, w) :: ch => substitute (ReplaceAll template m w) ch

/-- The full Cartesian product over the markers used: one target per choice
of a word for each marker that occurs in the template. -/
def cartesianTargets (markers : WordlistData) (template : GoString) : List GoString :=
  (choices (usedMarkers markers template)).map (substitute template)

/-- The targets for a list of entries, all taken as used. -/
def expand (U : WordlistData) (t : GoString) : List GoString :=
  (choices U).map (substitute t)

/-- The text begins with a non-empty suffix of some word of the mapping. -/
def startsInWord (markers : WordlistData) (x : GoString) : Bool :=
  markers.any (fun e => e.2.any (fun w => w.tails.any (fun s => !s.isEmpty && s.isPrefixOf x)))

/-- The number of positions of a string at which the text does not begin with
a non-empty suffix of a word. -/
def freeCount (markers : WordlistData) : GoString → Nat
  | [] => 0
  | c :: r => (if startsInWord markers (c :: r) then 0 else 1) + freeCount markers r

/-- Instances of `m` and `m'` cannot overlap with `m'` starting first (or at the
same position): for no non-empty suffix `s` of `m'` is `m` a prefix of `s` or `s`
a prefix of `m`. -/
def Apart (m m' : GoString) : Prop :=
  ∀ s ∈ m'.tails, s ≠ [] → ¬ m <+: s ∧ ¬ s <+: m

instance (m m' : GoString) : Decidable (Apart m m') := by
  unfold Apart; infer_instance

/-- No instance of a key can overlap an instance of another key or an instance
of a word, in any string. -/
def CannotOverlap (markers : WordlistData) : Prop :=
  (∀ m ∈ keys markers, ∀ m' ∈ keys markers, m ≠ m' → Apart m m') ∧
  (∀ e ∈ markers, ∀ w ∈ e.2, ∀ k ∈ keys markers, Apart k w ∧ Apart w k)

instance (markers : WordlistData) : Decidable (CannotOverlap markers) := by
  unfold CannotOverlap; infer_instance

/-- The character occurs in no key of the mapping. -/
def neutral (markers : WordlistData) (c : Char) : Bool :=
  !(keys markers).any (fun k => k.contains c)

/-- The text is empty or begins with a character that occurs in no key. -/
def endsKey (markers : WordlistData) : GoString → Bool
  | [] => true
  | d :: _ => neutral markers d

/-- Every instance of a key in the text stands between characters that occur
in no key, or at an end of the text; `prev` tells whether this holds of the
place in front of the text. -/
def delimitedFrom (markers : WordlistData) : Bool → GoString → Bool
  | _, [] => true
  | prev, c :: r =>
    (keys markers).all
        (fun k => !k.isPrefixOf (c :: r) || (prev && endsKey markers ((c :: r).drop k.length)))
      && delimitedFrom markers (neutral markers c) r

/-- No word contains a key, and every instance of a key in the template stands
between characters that occur in no key, or at an end of the template. -/
def Delimited (markers : WordlistData) (template : GoString) : Prop :=
  (∀ e ∈ markers, ∀ w ∈ e.2, ∀ k ∈ keys markers, Contains w k = false) ∧
  delimitedFrom markers true template = true

instance (markers : WordlistData) (template : GoString) :
    Decidable (Delimited markers template) := by
  unfold Delimited; infer_instance

/-- A mapping and a template on which the expansion is the Cartesian product:
the keys are distinct, as the keys of a Go map are, and non-empty, and either no instance of a key can overlap
an instance of another key or of a word, or no word contains a key and the
instances of the keys in the template stand between characters that occur in no
key. -/
structure Admissible (markers : WordlistData) (template : GoString) : Prop where
  nodup : (keys markers).Nodup
  nonempty : ∀ m ∈ keys markers, m ≠ []
  safe : CannotOverlap markers ∨ Delimited markers template

/-- A property of templates that every replacement of a key by one of its words
keeps, and under which such a replacement removes the key, leaves the presence of
the other keys as it is, and commutes with the replacement of another key. -/
structure Stable (markers : WordlistData) (Inv : GoString → Prop) : Prop where
  step : ∀ t, Inv t → ∀ e ∈ markers, ∀ w ∈ e.2, Inv (ReplaceAll t e.1 w)
  self : ∀ t, Inv t → ∀ e ∈ markers, ∀ w ∈ e.2, Contains (ReplaceAll t e.1 w) e.1 = false
  other : ∀ t, Inv t → ∀ e ∈ markers, ∀ w ∈ e.2, ∀ k ∈ keys markers, k ≠ e.1 →
    Contains (ReplaceAll t e.1 w) k = Contains t k
  comm : ∀ t, Inv t → ∀ e ∈ markers, ∀ w ∈ e.2, ∀ e' ∈ markers, ∀ w' ∈ e'.2, e.1 ≠ e'.1 →
    ReplaceAll (ReplaceAll t e.1 w) e'.1 w' = ReplaceAll (ReplaceAll t e'.1 w') e.1 w

/-! ## Mappings used in the concrete instances -/

/-- Two keys of which one contains the other. -/
def overlappingKeys : WordlistData :=
  [("WL1".toList, ["a".toList]), ("WL11".toList, ["b".toList, "c".toList])]

/-- Two keys that cannot overlap, and the word `1`, with which the key `WL1` ends. -/
def wordMeetingKey : WordlistData :=
  [("WL1".toList, ["a".toList, "b".toList]), ("XY".toList, ["1".toList])]

/-- Two keys that cannot overlap, and the word `xW`, which ends as the key `WL1`
begins. -/
def wordBeginningKey : WordlistData :=
  [("WL1".toList, ["a".toList, "b".toList]), ("XY".toList, ["xW".toList])]

/-- A mapping with the empty key, as the flag value `path:` registers it. -/
def withEmptyKey : WordlistData :=
  [("".toList, ["x".toList]), ("WL1".toList, ["a".toList, "b".toList])]

/-- Two keys that cannot overlap, with words that share characters with them. -/
def sampleWordlists : WordlistData :=
  [("WL1".toList, ["ns1".toList, "v1".toList, "LICENSE".toList]),
    ("WL2".toList, ["x".toList, "y".toList])]

/-- Two keys with words that begin like the end of a key. -/
def numericWordlists : WordlistData :=
  [("WL1".toList, ["1".toList, "10".toList, "admin".toList]),
    ("WL2".toList, ["x".toList, "y".toList])]

/-- Two overlapping keys, with words inside which neither can begin. -/
def overlappingWordlists : WordlistData :=
  [("WL1".toList, ["v1".toList, "ns1".toList, "Web".toList]), ("WL11".toList, ["LICENSE".toList])]

/-! ## Facts about the `strings` functions -/

theorem Contains_nil_left {m : GoString} (hm : m ≠ []) : Contains [] m = false := by
  cases m with
  | nil => exact absurd rfl hm
  | cons a m => simp [Contains]

theorem Contains_cons (c : Char) (cs m : GoString) :
    Contains (c :: cs) m = (m.isPrefixOf (c :: cs) || Contains cs m) := rfl

/-- `Contains` is the infix relation on lists. -/
theorem Contains_iff_isInfix (s m : GoString) : Contains s m = true ↔ m <:+: s := by
  induction s with
  | nil =>
    cases m with
    | nil => simp [Contains]
    | cons a m => simp [Contains]
  | cons c cs ih =>
    rw [Contains_cons, Bool.or_eq_true, ih, List.isPrefixOf_iff_prefix, List.infix_cons_iff]

theorem replaceLoop_fuel (old new : GoString) (hold : old ≠ []) :
    ∀ (n : Nat) (s : GoString), s.length ≤ n →
      replaceLoop old new n s = replaceLoop old new s.length s := by
  intro n
  induction n using Nat.strong_induction_on with
  | _ n ih =>
    intro s hs
    cases s with
    | nil => cases n <;> rfl
    | cons c cs =>
      cases n with
      | zero => simp at hs
      | succ n =>
        have hcs : cs.length ≤ n := by simpa using hs
        have hd : ((c :: cs).drop old.length).length ≤ cs.length := by
          cases old with
          | nil => exact absurd rfl hold
          | cons a old => simp [List.length_drop]
        simp only [List.length_cons, replaceLoop]
        by_cases hp : old.isPrefixOf (c :: cs) = true
        · simp only [hp, if_true]
          rw [ih n (Nat.lt_succ_self n) _ (le_trans hd hcs)]
          rw [ih cs.length (by omega) _ hd]
        · simp only [hp]
          rw [ih n (Nat.lt_succ_self n) _ hcs]
          simp

theorem ReplaceAll_nil {old : GoString} (new : GoString) (hold : old ≠ []) :
    ReplaceAll [] old new = [] := by
  simp [ReplaceAll, hold, replaceLoop]

theorem replaceLoop_succ_instance (old new : GoString) (n : Nat) (c : Char) (cs : GoString)
    (hp : old.isPrefixOf (c :: cs) = true) :
    replaceLoop old new (n + 1) (c :: cs) =
      new ++ replaceLoop old new n ((c :: cs).drop old.length) := by
  rw [replaceLoop, if_pos hp]

theorem replaceLoop_succ_cons (old new : GoString) (n : Nat) (c : Char) (cs : GoString)
    (hp : ¬ old.isPrefixOf (c :: cs) = true) :
    replaceLoop old new (n + 1) (c :: cs) = c :: replaceLoop old new n cs := by
  rw [replaceLoop, if_neg hp]

/-- An instance of `old` at the front is replaced and the scan goes on behind it. -/
theorem ReplaceAll_instance {old : GoString} (new r : GoString) (hold : old ≠ []) :
    ReplaceAll (old ++ r) old new = new ++ ReplaceAll r old new := by
  obtain ⟨a, o, rfl⟩ := List.exists_cons_of_ne_nil hold
  have hp : (a :: o).isPrefixOf (a :: (o ++ r)) = true := by
    rw [List.isPrefixOf_iff_prefix]; exact ⟨r, rfl⟩
  have hdrop : List.drop (a :: o).length (a :: (o ++ r)) = r := by
    simp
  have hlen : (a :: o ++ r).length = (o ++ r).length + 1 := by simp
  unfold ReplaceAll
  rw [if_neg hold, if_neg hold, List.cons_append, List.length_cons,
    replaceLoop_succ_instance _ _ _ _ _ hp, hdrop,
    replaceLoop_fuel _ _ hold _ r (by simp)]

/-- A character at which no instance of `old` starts is copied. -/
theorem ReplaceAll_cons {old : GoString} (new : GoString) (c : Char) (cs : GoString)
    (hold : old ≠ []) (hp : ¬ old <+: c :: cs) :
    ReplaceAll (c :: cs) old new = c :: ReplaceAll cs old new := by
  have hp' : ¬ old.isPrefixOf (c :: cs) = true := by
    rwa [List.isPrefixOf_iff_prefix]
  unfold ReplaceAll
  rw [if_neg hold, if_neg hold, List.length_cons, replaceLoop_succ_cons _ _ _ _ _ hp']

theorem length_induction {P : GoString → Prop}
    (h : ∀ t, (∀ u, u.length < t.length → P u) → P t) : ∀ t, P t := by
  intro t
  generalize hn : t.length = n
  induction n using Nat.strong_induction_on generalizing t with
  | _ n ih =>
    apply h
    intro u hu
    exact ih u.length (hn ▸ hu) u rfl

theorem not_prefix_of_head_not_mem {m : GoString} (hm : m ≠ []) {c : Char} (hc : c ∉ m)
    (r : GoString) : ¬ m <+: c :: r := by
  obtain ⟨a, o, rfl⟩ := List.exists_cons_of_ne_nil hm
  intro h
  have := List.cons_prefix_cons.1 h
  exact hc (by simp [this.1])

theorem not_prefix_append_of_apart {m m' : GoString} (h : Apart m m') {s : GoString}
    (hs : s <:+ m') (hne : s ≠ []) (y : GoString) : ¬ m <+: s ++ y := by
  intro hp
  have h1 := h s ((List.mem_tails s m').2 hs) hne
  rcases List.prefix_or_prefix_of_prefix hp (List.prefix_append s y) with h2 | h2
  · exact h1.1 h2
  · exact h1.2 h2

/-- The scan copies a stretch in which no instance of `m` can start. -/
theorem ReplaceAll_append_of_apart {m m' : GoString} (w : GoString) (hm : m ≠ [])
    (h : Apart m m') (y : GoString) :
    ∀ s, s <:+ m' → ReplaceAll (s ++ y) m w = s ++ ReplaceAll y m w := by
  intro s
  induction s with
  | nil => intro _; rfl
  | cons c s ih =>
    intro hs
    have hs' : s <:+ m' := (List.suffix_cons c s).trans hs
    have hnp : ¬ m <+: c :: (s ++ y) := by
      have := not_prefix_append_of_apart h hs (List.cons_ne_nil c s) y
      simpa using this
    rw [List.cons_append, ReplaceAll_cons w c (s ++ y) hm hnp, ih hs', List.cons_append]

/-- The three cases of the scan at the front of a string. -/
theorem scan_cases {m : GoString} (x : GoString) :
    x = [] ∨ (∃ r, x = m ++ r) ∨ (∃ c r, x = c :: r ∧ ¬ m <+: c :: r) := by
  cases x with
  | nil => exact Or.inl rfl
  | cons c r =>
    by_cases hp : m <+: c :: r
    · obtain ⟨r', hr'⟩ := hp
      exact Or.inr (Or.inl ⟨r', hr'.symm⟩)
    · exact Or.inr (Or.inr ⟨c, r, rfl, hp⟩)

/-- A prefix made of characters foreign to the replacement word is found behind
the scan only where it was before. -/
theorem prefix_of_prefix_ReplaceAll {m w : GoString} (hm : m ≠ []) (hw : w ≠ []) :
    ∀ (p : GoString), (∀ c ∈ w, c ∉ p) → ∀ x, p <+: ReplaceAll x m w → p <+: x := by
  intro p
  induction p with
  | nil => intro _ x _; exact List.nil_prefix
  | cons a p ih =>
    intro hwp x hx
    rcases scan_cases (m := m) x with rfl | ⟨r, rfl⟩ | ⟨c, r, rfl, hnp⟩
    · rw [ReplaceAll_nil w hm] at hx
      exact hx
    · rw [ReplaceAll_instance w r hm] at hx
      obtain ⟨b, v, rfl⟩ := List.exists_cons_of_ne_nil hw
      have := (List.cons_prefix_cons.1 hx).1
      exact absurd (by simp [this]) (hwp b (by simp))
    · rw [ReplaceAll_cons w c r hm hnp] at hx
      have h1 := List.cons_prefix_cons.1 hx
      exact List.cons_prefix_cons.2
        ⟨h1.1, ih (fun d hd hdp => hwp d hd (by simp [hdp])) r h1.2⟩

/-- A suffix of a marker `k` that the word cannot overlap is found as a prefix
behind the scan only where it was before. -/
theorem prefix_of_prefix_ReplaceAll_apart {m k w : GoString} (hm : m ≠ []) (hw : Apart w k) :
    ∀ (p : GoString), p <:+ k → ∀ x, p <+: ReplaceAll x m w → p <+: x := by
  intro p
  induction p with
  | nil => intro _ x _; exact List.nil_prefix
  | cons a p ih =>
    intro hp x hx
    have hp' : p <:+ k := (List.suffix_cons a p).trans hp
    rcases scan_cases (m := m) x with rfl | ⟨r, rfl⟩ | ⟨c, r, rfl, hnp⟩
    · rw [ReplaceAll_nil w hm] at hx
      exact hx
    · rw [ReplaceAll_instance w r hm] at hx
      have h1 := hw (a :: p) ((List.mem_tails _ _).2 hp) (List.cons_ne_nil a p)
      rcases List.prefix_or_prefix_of_prefix hx (List.prefix_append w _) with h2 | h2
      · exact absurd h2 h1.2
      · exact absurd h2 h1.1
    · rw [ReplaceAll_cons w c r hm hnp] at hx
      have h1 := List.cons_prefix_cons.1 hx
      exact List.cons_prefix_cons.2 ⟨h1.1, ih hp' r h1.2⟩

/-- A suffix of a marker `k` that neither `m` nor the word can overlap is a
prefix behind the scan for `m` exactly where it was one before. -/
theorem prefix_ReplaceAll_iff {m k w : GoString} (hm : m ≠ [])
    (h : Apart m k) (hw : Apart w k) :
    ∀ (p : GoString), p <:+ k → ∀ x, p <+: ReplaceAll x m w ↔ p <+: x := by
  intro p
  induction p with
  | nil => intro _ x; simp
  | cons a p ih =>
    intro hp x
    have hp' : p <:+ k := (List.suffix_cons a p).trans hp
    rcases scan_cases (m := m) x with rfl | ⟨r, rfl⟩ | ⟨c, r, rfl, hnp⟩
    · rw [ReplaceAll_nil w hm]
    · rw [ReplaceAll_instance w r hm]
      constructor
      · intro hx
        have h1 := hw (a :: p) ((List.mem_tails _ _).2 hp) (List.cons_ne_nil a p)
        rcases List.prefix_or_prefix_of_prefix hx (List.prefix_append w _) with h2 | h2
        · exact absurd h2 h1.2
        · exact absurd h2 h1.1
      · intro hx
        have h1 := h (a :: p) ((List.mem_tails _ _).2 hp) (List.cons_ne_nil a p)
        rcases List.prefix_or_prefix_of_prefix hx (List.prefix_append m r) with h2 | h2
        · exact absurd h2 h1.2
        · exact absurd h2 h1.1
    · rw [ReplaceAll_cons w c r hm hnp, List.cons_prefix_cons, List.cons_prefix_cons, ih hp' r]

/-- No instance of `m'` starts in a stretch without the first character of `m'`. -/
theorem Contains_append_of_disjoint {m' : GoString} (hm' : m' ≠ []) (y : GoString) :
    ∀ u : GoString, (∀ c ∈ u, c ∉ m') → Contains (u ++ y) m' = Contains y m' := by
  intro u
  induction u with
  | nil => intro _; rfl
  | cons c u ih =>
    intro hu
    have hc : c ∉ m' := hu c (by simp)
    have hnp : ¬ m'.isPrefixOf (c :: (u ++ y)) = true := by
      rw [List.isPrefixOf_iff_prefix]; exact not_prefix_of_head_not_mem hm' hc _
    rw [List.cons_append, Contains_cons, Bool.eq_false_iff.2 hnp, Bool.false_or,
      ih (fun d hd => hu d (by simp [hd]))]

/-- No instance of `m'` starts inside an instance of a marker it cannot overlap. -/
theorem Contains_append_of_apart {m m' : GoString} (h : Apart m' m) (y : GoString) :
    ∀ s, s <:+ m → Contains (s ++ y) m' = Contains y m' := by
  intro s
  induction s with
  | nil => intro _; rfl
  | cons c s ih =>
    intro hs
    have hs' : s <:+ m := (List.suffix_cons c s).trans hs
    have hnp : ¬ m'.isPrefixOf (c :: (s ++ y)) = true := by
      rw [List.isPrefixOf_iff_prefix]
      have := not_prefix_append_of_apart h hs (List.cons_ne_nil c s) y
      simpa using this
    rw [List.cons_append, Contains_cons, Bool.eq_false_iff.2 hnp, Bool.false_or, ih hs']

/-- After the replacement of `m` by a non-empty word without characters of
`m`, the string holds no instance of `m`. -/
theorem Contains_ReplaceAll_self {m w : GoString} (hm : m ≠ []) (hw : w ≠ [])
    (hwm : ∀ c ∈ w, c ∉ m) : ∀ t, Contains (ReplaceAll t m w) m = false := by
  intro t
  induction t using length_induction with
  | _ t ih =>
    rcases scan_cases (m := m) t with rfl | ⟨r, rfl⟩ | ⟨c, r, rfl, hnp⟩
    · rw [ReplaceAll_nil w hm]; exact Contains_nil_left hm
    · rw [ReplaceAll_instance w r hm, Contains_append_of_disjoint hm _ w hwm]
      apply ih
      have := List.length_pos.2 hm
      simp; omega
    · rw [ReplaceAll_cons w c r hm hnp, Contains_cons, ih r (by simp), Bool.or_false]
      rw [Bool.eq_false_iff, Ne, List.isPrefixOf_iff_prefix]
      intro hx
      apply hnp
      have : m <+: ReplaceAll (c :: r) m w := by
        rw [ReplaceAll_cons w c r hm hnp]; exact hx
      exact prefix_of_prefix_ReplaceAll hm hw m hwm _ this

/-- After the replacement of `m` by a word that cannot overlap `m`, the string
holds no instance of `m`. -/
theorem Contains_ReplaceAll_self_apart {m w : GoString} (hm : m ≠ [])
    (h : Apart m w) (hw : Apart w m) : ∀ t, Contains (ReplaceAll t m w) m = false := by
  intro t
  induction t using length_induction with
  | _ t ih =>
    rcases scan_cases (m := m) t with rfl | ⟨r, rfl⟩ | ⟨c, r, rfl, hnp⟩
    · rw [ReplaceAll_nil w hm]; exact Contains_nil_left hm
    · rw [ReplaceAll_instance w r hm, Contains_append_of_apart h _ w (List.suffix_refl w)]
      apply ih
      have := List.length_pos.2 hm
      simp; omega
    · rw [ReplaceAll_cons w c r hm hnp, Contains_cons, ih r (by simp), Bool.or_false]
      rw [Bool.eq_false_iff, Ne, List.isPrefixOf_iff_prefix]
      intro hx
      apply hnp
      have : m <+: ReplaceAll (c :: r) m w := by
        rw [ReplaceAll_cons w c r hm hnp]; exact hx
      exact prefix_of_prefix_ReplaceAll_apart hm hw m (List.suffix_refl m) _ this

/-- The replacement of `m` by `w` neither removes nor creates instances of a
marker `k` that can overlap neither `m` nor `w`. -/
theorem Contains_ReplaceAll_other {m k w : GoString} (hm : m ≠ [])
    (h : Apart m k) (h' : Apart k m) (hw : Apart w k) (hw' : Apart k w) :
    ∀ t, Contains (ReplaceAll t m w) k = Contains t k := by
  intro t
  induction t using length_induction with
  | _ t ih =>
    rcases scan_cases (m := m) t with rfl | ⟨r, rfl⟩ | ⟨c, r, rfl, hnp⟩
    · rw [ReplaceAll_nil w hm]
    · rw [ReplaceAll_instance w r hm, Contains_append_of_apart hw' _ w (List.suffix_refl w),
        Contains_append_of_apart h' r m (List.suffix_refl m)]
      apply ih
      have := List.length_pos.2 hm
      simp; omega
    · have hpre := prefix_ReplaceAll_iff hm h hw k (List.suffix_refl k) (c :: r)
      rw [ReplaceAll_cons w c r hm hnp] at hpre
      rw [ReplaceAll_cons w c r hm hnp, Contains_cons, Contains_cons, ih r (by simp)]
      congr 1
      rw [Bool.eq_iff_iff, List.isPrefixOf_iff_prefix, List.isPrefixOf_iff_prefix]
      exact hpre

/-- Replacements of two markers commute when the markers cannot overlap each
other and neither can overlap the word of the other. -/
theorem ReplaceAll_comm {m k w w' : GoString} (hm : m ≠ []) (hk : k ≠ [])
    (h : Apart m k) (h' : Apart k m) (hw : Apart w k) (hw' : Apart k w)
    (hv : Apart w' m) (hv' : Apart m w') :
    ∀ t, ReplaceAll (ReplaceAll t m w) k w' = ReplaceAll (ReplaceAll t k w') m w := by
  intro t
  induction t using length_induction with
  | _ t ih =>
    rcases scan_cases (m := m) t with rfl | ⟨r, rfl⟩ | ⟨c, r, rfl, hnp⟩
    · rw [ReplaceAll_nil w hm, ReplaceAll_nil w' hk, ReplaceAll_nil w hm]
    · rw [ReplaceAll_instance w r hm,
        ReplaceAll_append_of_apart w' hk hw' _ w (List.suffix_refl w),
        ReplaceAll_append_of_apart w' hk h' r m (List.suffix_refl m),
        ReplaceAll_instance w _ hm, ih r]
      have := List.length_pos.2 hm
      simp; omega
    · rcases scan_cases (m := k) (c :: r) with h0 | ⟨r', hr'⟩ | ⟨c', r'', hr'', hnp'⟩
      · simp at h0
      · rw [hr', ReplaceAll_instance w' r' hk,
          ReplaceAll_append_of_apart w hm hv' _ w' (List.suffix_refl w'),
          ReplaceAll_append_of_apart w hm h r' k (List.suffix_refl k),
          ReplaceAll_instance w' _ hk, ih r']
        have := List.length_pos.2 hk
        rw [hr']; simp; omega
      · obtain ⟨rfl, rfl⟩ := List.cons.inj hr''
        have h1 : ¬ k <+: c :: ReplaceAll r m w := by
          have := prefix_ReplaceAll_iff hm h hw k (List.suffix_refl k) (c :: r)
          rw [ReplaceAll_cons w c r hm hnp] at this
          exact fun hx => hnp' (this.1 hx)
        have h2 : ¬ m <+: c :: ReplaceAll r k w' := by
          have := prefix_ReplaceAll_iff hk h' hv m (List.suffix_refl m) (c :: r)
          rw [ReplaceAll_cons w' c r hk hnp'] at this
          exact fun hx => hnp (this.1 hx)
        rw [ReplaceAll_cons w c r hm hnp, ReplaceAll_cons w' c r hk hnp',
          ReplaceAll_cons w' c _ hk h1, ReplaceAll_cons w c _ hm h2, ih r (by simp)]

/-! ## Templates whose markers stand between neutral characters -/

theorem not_neutral_of_mem {markers : WordlistData} {k : GoString} (hk : k ∈ keys markers)
    {c : Char} (hc : c ∈ k) : neutral markers c = false := by
  unfold neutral
  rw [Bool.not_eq_false', List.any_eq_true]
  exact ⟨k, hk, by simpa using hc⟩

theorem not_prefix_of_neutral {markers : WordlistData} {k : GoString} (hk : k ∈ keys markers)
    (hne : k ≠ []) {c : Char} (hc : neutral markers c = true) (r : GoString) :
    ¬ k <+: c :: r := by
  obtain ⟨a, o, rfl⟩ := List.exists_cons_of_ne_nil hne
  intro h
  have h1 := (List.cons_prefix_cons.1 h).1
  have h2 := not_neutral_of_mem hk (List.mem_cons_self a o)
  rw [h1, hc] at h2
  exact absurd h2 (by simp)

theorem delimitedFrom_cons (markers : WordlistData) (b : Bool) (c : Char) (r : GoString) :
    delimitedFrom markers b (c :: r) = true ↔
      (∀ k ∈ keys markers, k <+: c :: r →
        b = true ∧ endsKey markers ((c :: r).drop k.length) = true) ∧
      delimitedFrom markers (neutral markers c) r = true := by
  rw [delimitedFrom, Bool.and_eq_true, List.all_eq_true]
  apply and_congr_left'
  constructor
  · intro h k hk hp
    have := h k hk
    rw [Bool.or_eq_true, Bool.not_eq_true', Bool.and_eq_true] at this
    rcases this with h1 | h1
    · rw [← List.isPrefixOf_iff_prefix, h1] at hp
      exact absurd hp (by simp)
    · exact h1
  · intro h k hk
    rw [Bool.or_eq_true, Bool.not_eq_true', Bool.and_eq_true]
    by_cases hp : k <+: c :: r
    · exact Or.inr (h k hk hp)
    · left
      rw [Bool.eq_false_iff, Ne, List.isPrefixOf_iff_prefix]
      exact hp

/-- In front of a text that is empty or begins with a neutral character, the
state of the place in front does not matter. -/
theorem delimitedFrom_of_endsKey {markers : WordlistData} (hne : ∀ m ∈ keys markers, m ≠ [])
    {z : GoString} (hz : endsKey markers z = true) (b b' : Bool) :
    delimitedFrom markers b z = true → delimitedFrom markers b' z = true := by
  cases z with
  | nil => intro _; rfl
  | cons d z =>
    intro h
    rw [delimitedFrom_cons] at h ⊢
    refine ⟨fun k hk hp => ?_, h.2⟩
    exact absurd hp (not_prefix_of_neutral hk (hne k hk) hz z)

/-- Behind a key character no key starts, all along a stretch of key characters. -/
theorem delimitedFrom_false_append {markers : WordlistData} (y : GoString) :
    ∀ s : GoString, (∀ c ∈ s, neutral markers c = false) →
      delimitedFrom markers false (s ++ y) = true →
      delimitedFrom markers false y = true ∧
      ∀ m ∈ keys markers, ∀ s', s' <:+ s → s' ≠ [] → ¬ m <+: s' ++ y := by
  intro s
  induction s with
  | nil =>
    intro _ h
    refine ⟨h, ?_⟩
    intro m _ s' hs' hne
    exact absurd (List.suffix_nil.1 hs') hne
  | cons c s ih =>
    intro hs h
    rw [List.cons_append, delimitedFrom_cons] at h
    have hc : neutral markers c = false := hs c (by simp)
    rw [hc] at h
    obtain ⟨h1, h2⟩ := ih (fun d hd => hs d (by simp [hd])) h.2
    refine ⟨h1, ?_⟩
    intro m hm s' hs' hne hp
    rcases List.suffix_cons_iff.1 hs' with rfl | hs''
    · have := (h.1 m hm hp).1
      exact absurd this (by simp)
    · exact h2 m hm s' hs'' hne hp

/-- What an instance of a key at the front of a delimited text entails. -/
theorem delimitedFrom_key_append {markers : WordlistData} {k : GoString}
    (hk : k ∈ keys markers) (hne : k ≠ []) {b : Bool} {y : GoString}
    (h : delimitedFrom markers b (k ++ y) = true) :
    b = true ∧ endsKey markers y = true ∧ delimitedFrom markers false y = true ∧
    (∀ m ∈ keys markers, ∀ s', s' <:+ k → s' ≠ [] → s' ≠ k → ¬ m <+: s' ++ y) ∧
    (∀ m ∈ keys markers, m <+: k ++ y → m = k) := by
  obtain ⟨a, o, rfl⟩ := List.exists_cons_of_ne_nil hne
  rw [List.cons_append, delimitedFrom_cons] at h
  have hk0 := h.1 (a :: o) hk ⟨y, rfl⟩
  have hdrop : List.drop (a :: o).length (a :: (o ++ y)) = y := by simp
  rw [hdrop] at hk0
  have ha : neutral markers a = false := not_neutral_of_mem hk (List.mem_cons_self a o)
  have htail := h.2
  rw [ha] at htail
  obtain ⟨h1, h2⟩ := delimitedFrom_false_append y o
    (fun c hc => not_neutral_of_mem hk (List.mem_cons_of_mem a hc)) htail
  refine ⟨hk0.1, hk0.2, h1, ?_, ?_⟩
  · intro m hm s' hs' hne' hnk
    rcases List.suffix_cons_iff.1 hs' with rfl | hs''
    · exact absurd rfl hnk
    · exact h2 m hm s' hs'' hne'
  · intro m hm hp
    have hm0 := (h.1 m hm hp).2
    rcases Nat.lt_trichotomy m.length (a :: o).length with hlt | heq | hgt
    · -- the character behind `m` is a character of the key
      exfalso
      have hpk : m <+: a :: o := by
        rcases List.prefix_or_prefix_of_prefix hp (List.prefix_append (a :: o) y) with h3 | h3
        · exact h3
        · exact absurd h3.length_le (by omega)
      obtain ⟨q, hq⟩ := hpk
      have hqne : q ≠ [] := by
        rintro rfl
        rw [List.append_nil] at hq
        rw [hq] at hlt
        exact absurd hlt (Nat.lt_irrefl _)
      obtain ⟨d, q', rfl⟩ := List.exists_cons_of_ne_nil hqne
      have hd : d ∈ a :: o := by rw [← hq]; simp
      have hdr : List.drop m.length (a :: (o ++ y)) = d :: (q' ++ y) := by
        have : a :: (o ++ y) = m ++ (d :: (q' ++ y)) := by
          rw [← List.cons_append, ← hq]; simp
        rw [this, List.drop_left]
      rw [hdr] at hm0
      have := not_neutral_of_mem hk hd
      rw [endsKey, this] at hm0
      exact absurd hm0 (by simp)
    · exact List.IsPrefix.eq_of_length
        (by
          rcases List.prefix_or_prefix_of_prefix hp (List.prefix_append (a :: o) y) with h3 | h3
          · exact h3
          · exact (h3.eq_of_length heq.symm) ▸ List.prefix_refl _) heq
    · -- the key `m` runs over the character behind `k`, which is neutral
      exfalso
      have hkm : a :: o <+: m := by
        rcases List.prefix_or_prefix_of_prefix hp (List.prefix_append (a :: o) y) with h3 | h3
        · exact absurd h3.length_le (by omega)
        · exact h3
      obtain ⟨q, hq⟩ := hkm
      have hqne : q ≠ [] := by
        rintro rfl
        rw [List.append_nil] at hq
        rw [← hq] at hgt
        exact absurd hgt (Nat.lt_irrefl _)
      obtain ⟨d, q', rfl⟩ := List.exists_cons_of_ne_nil hqne
      have hd : d ∈ m := by rw [← hq]; simp
      have hy : d :: q' <+: y := by
        rw [← hq] at hp
        exact (List.prefix_append_right_inj (a :: o)).1 (by simpa using hp)
      obtain ⟨y', rfl⟩ := hy
      have h5 := hk0.2
      rw [List.cons_append, endsKey, not_neutral_of_mem hm hd] at h5
      exact absurd h5 (by simp)

/-- No instance of `k` starts in a stretch at no place of which `k` is a prefix. -/
theorem Contains_append_of_no_start {k : GoString} (y : GoString) :
    ∀ s : GoString, (∀ s', s' <:+ s → s' ≠ [] → ¬ k <+: s' ++ y) →
      Contains (s ++ y) k = Contains y k := by
  intro s
  induction s with
  | nil => intro _; rfl
  | cons c s ih =>
    intro h
    have hnp : ¬ k.isPrefixOf (c :: (s ++ y)) = true := by
      rw [List.isPrefixOf_iff_prefix]
      exact h (c :: s) (List.suffix_refl _) (List.cons_ne_nil c s)
    rw [List.cons_append, Contains_cons, Bool.eq_false_iff.2 hnp, Bool.false_or,
      ih (fun s' hs' hne => h s' ((List.suffix_cons_iff.2 (Or.inr hs'))) hne)]

/-- The scan copies a stretch at no place of which `m` is a prefix. -/
theorem ReplaceAll_append_of_no_start {m : GoString} (w : GoString) (hm : m ≠ [])
    (y : GoString) :
    ∀ s : GoString, (∀ s', s' <:+ s → s' ≠ [] → ¬ m <+: s' ++ y) →
      ReplaceAll (s ++ y) m w = s ++ ReplaceAll y m w := by
  intro s
  induction s with
  | nil => intro _; rfl
  | cons c s ih =>
    intro h
    have hnp : ¬ m <+: c :: (s ++ y) :=
      h (c :: s) (List.suffix_refl _) (List.cons_ne_nil c s)
    rw [List.cons_append, ReplaceAll_cons w c (s ++ y) hm hnp,
      ih (fun s' hs' hne => h s' ((List.suffix_cons_iff.2 (Or.inr hs'))) hne), List.cons_append]

/-- In front of a neutral character, a key starts nowhere in a stretch that does
not contain it. -/
theorem no_start_of_not_Contains {markers : WordlistData} {k : GoString}
    (hk : k ∈ keys markers) {u z : GoString} (hu : Contains u k = false)
    (hz : endsKey markers z = true) :
    ∀ s', s' <:+ u → s' ≠ [] → ¬ k <+: s' ++ z := by
  intro s' hs' hne hp
  have hnot : ¬ k <:+: u := by
    rw [← Contains_iff_isInfix, hu]; simp
  rcases List.prefix_or_prefix_of_prefix hp (List.prefix_append s' z) with h1 | h1
  · exact hnot (h1.isInfix.trans hs'.isInfix)
  · obtain ⟨q, hq⟩ := h1
    cases q with
    | nil =>
      rw [List.append_nil] at hq
      exact hnot (hq ▸ hs'.isInfix)
    | cons d q =>
      have hd : d ∈ k := by rw [← hq]; simp
      have hqz : d :: q <+: z := by
        rw [← hq] at hp
        exact (List.prefix_append_right_inj s').1 hp
      obtain ⟨z', rfl⟩ := hqz
      rw [List.cons_append, endsKey, not_neutral_of_mem hk hd] at hz
      exact absurd hz (by simp)

theorem endsKey_ReplaceAll {markers : WordlistData} {m : GoString} (hm : m ∈ keys markers)
    (hne : m ≠ []) (w : GoString) {z : GoString} (hz : endsKey markers z = true) :
    endsKey markers (ReplaceAll z m w) = true := by
  cases z with
  | nil => rw [ReplaceAll_nil w hne]; rfl
  | cons d z =>
    rw [ReplaceAll_cons w d z hne (not_prefix_of_neutral hm hne hz z)]
    exact hz

/-- Behind a key character, a stretch of key characters is a prefix behind the
scan exactly where it was one before. -/
theorem prefix_ReplaceAll_iff_of_delimited {markers : WordlistData} {m : GoString}
    (hm : m ∈ keys markers) (hne : m ≠ []) (w : GoString) :
    ∀ p : GoString, (∀ c ∈ p, neutral markers c = false) →
      ∀ r, delimitedFrom markers false r = true →
        (p <+: ReplaceAll r m w ↔ p <+: r) := by
  intro p
  induction p with
  | nil => intro _ r _; simp
  | cons a p ih =>
    intro hp r hr
    rcases scan_cases (m := m) r with rfl | ⟨r2, rfl⟩ | ⟨c, r2, rfl, hnp⟩
    · rw [ReplaceAll_nil w hne]
    · exact absurd (delimitedFrom_key_append hm hne hr).1 (by simp)
    · rw [ReplaceAll_cons w c r2 hne hnp, List.cons_prefix_cons, List.cons_prefix_cons]
      apply and_congr_right
      intro hac
      have hc : neutral markers c = false := hac ▸ hp a (by simp)
      have htail := ((delimitedFrom_cons markers false c r2).1 hr).2
      rw [hc] at htail
      exact ih (fun d hd => hp d (by simp [hd])) r2 htail

/-- Where the scan for `m` copies the first character, a key is a prefix behind
the scan exactly when it was one before. -/
theorem key_prefix_ReplaceAll_iff {markers : WordlistData} {m k : GoString}
    (hm : m ∈ keys markers) (hne : m ≠ []) (hk : k ∈ keys markers) (w : GoString)
    {b : Bool} {c : Char} {r : GoString} (h : delimitedFrom markers b (c :: r) = true) :
    (k <+: c :: ReplaceAll r m w ↔ k <+: c :: r) := by
  cases k with
  | nil => simp
  | cons a p =>
    rw [List.cons_prefix_cons, List.cons_prefix_cons]
    apply and_congr_right
    intro hac
    have hc : neutral markers c = false := hac ▸ not_neutral_of_mem hk (List.mem_cons_self a p)
    have htail := ((delimitedFrom_cons markers b c r).1 h).2
    rw [hc] at htail
    exact prefix_ReplaceAll_iff_of_delimited hm hne w p
      (fun d hd => not_neutral_of_mem hk (List.mem_cons_of_mem a hd)) r htail

/-- No key other than `m` starts inside an instance of `m` at the front of a
delimited text. -/
theorem no_start_in_key {markers : WordlistData} {m k : GoString}
    (hm : m ∈ keys markers) (hne : m ≠ []) (hk : k ∈ keys markers) (hkm : k ≠ m)
    {b : Bool} {r : GoString} (h : delimitedFrom markers b (m ++ r) = true) :
    ∀ s', s' <:+ m → s' ≠ [] → ¬ k <+: s' ++ r := by
  obtain ⟨_, _, _, h4, h5⟩ := delimitedFrom_key_append hm hne h
  intro s' hs' hne' hp
  by_cases hsm : s' = m
  · subst hsm
    exact hkm (h5 k hk hp)
  · exact h4 k hk s' hs' hne' hsm hp

/-- After the replacement of `m` by a word that does not contain `m`, a
delimited text holds no instance of `m`. -/
theorem Contains_ReplaceAll_self_of_delimited {markers : WordlistData} {m w : GoString}
    (hm : m ∈ keys markers) (hne : m ≠ []) (hw : Contains w m = false) :
    ∀ t b, delimitedFrom markers b t = true → Contains (ReplaceAll t m w) m = false := by
  intro t
  induction t using length_induction with
  | _ t ih =>
    intro b h
    rcases scan_cases (m := m) t with rfl | ⟨r, rfl⟩ | ⟨c, r, rfl, hnp⟩
    · rw [ReplaceAll_nil w hne]; exact Contains_nil_left hne
    · obtain ⟨_, h2, h3, _, _⟩ := delimitedFrom_key_append hm hne h
      rw [ReplaceAll_instance w r hne, Contains_append_of_no_start _ w
        (no_start_of_not_Contains hm hw (endsKey_ReplaceAll hm hne w h2))]
      exact ih r (by have := List.length_pos.2 hne; simp; omega) false h3
    · rw [ReplaceAll_cons w c r hne hnp, Contains_cons,
        ih r (by simp) _ ((delimitedFrom_cons markers b c r).1 h).2, Bool.or_false]
      rw [Bool.eq_false_iff, Ne, List.isPrefixOf_iff_prefix,
        key_prefix_ReplaceAll_iff hm hne hm w h]
      exact hnp

/-- In a delimited text the replacement of `m` by a word that does not contain
the key `k` neither removes nor creates instances of `k`. -/
theorem Contains_ReplaceAll_other_of_delimited {markers : WordlistData} {m k w : GoString}
    (hm : m ∈ keys markers) (hne : m ≠ []) (hk : k ∈ keys markers) (hkm : k ≠ m)
    (hw : Contains w k = false) :
    ∀ t b, delimitedFrom markers b t = true →
      Contains (ReplaceAll t m w) k = Contains t k := by
  intro t
  induction t using length_induction with
  | _ t ih =>
    intro b h
    rcases scan_cases (m := m) t with rfl | ⟨r, rfl⟩ | ⟨c, r, rfl, hnp⟩
    · rw [ReplaceAll_nil w hne]
    · obtain ⟨_, h2, h3, _, _⟩ := delimitedFrom_key_append hm hne h
      rw [ReplaceAll_instance w r hne, Contains_append_of_no_start _ w
        (no_start_of_not_Contains hk hw (endsKey_ReplaceAll hm hne w h2)),
        Contains_append_of_no_start r m (no_start_in_key hm hne hk hkm h)]
      exact ih r (by have := List.length_pos.2 hne; simp; omega) false h3
    · rw [ReplaceAll_cons w c r hne hnp, Contains_cons, Contains_cons,
        ih r (by simp) _ ((delimitedFrom_cons markers b c r).1 h).2]
      congr 1
      rw [Bool.eq_iff_iff, List.isPrefixOf_iff_prefix, List.isPrefixOf_iff_prefix]
      exact key_prefix_ReplaceAll_iff hm hne hk w h

theorem delimitedFrom_append_free {markers : WordlistData}
    (hne : ∀ m ∈ keys markers, m ≠ []) {z : GoString} (hz : endsKey markers z = true)
    (hzd : delimitedFrom markers false z = true) :
    ∀ (u : GoString), (∀ k ∈ keys markers, Contains u k = false) →
      ∀ b, delimitedFrom markers b (u ++ z) = true := by
  intro u
  induction u with
  | nil => intro _ b; exact delimitedFrom_of_endsKey hne hz false b hzd
  | cons c u ih =>
    intro hu b
    rw [List.cons_append, delimitedFrom_cons]
    constructor
    · intro k hk hp
      exact absurd hp (no_start_of_not_Contains hk (hu k hk) hz (c :: u) (List.suffix_refl _)
        (List.cons_ne_nil c u))
    · apply ih
      intro k hk
      have := hu k hk
      rw [Contains_cons, Bool.or_eq_false_iff] at this
      exact this.2

/-- The replacement of a key by a word that contains no key keeps a text
delimited. -/
theorem delimitedFrom_ReplaceAll {markers : WordlistData}
    (hne : ∀ m ∈ keys markers, m ≠ []) {m w : GoString} (hm : m ∈ keys markers)
    (hw : ∀ k ∈ keys markers, Contains w k = false) :
    ∀ t b, delimitedFrom markers b t = true →
      delimitedFrom markers b (ReplaceAll t m w) = true := by
  have hmne := hne m hm
  intro t
  induction t using length_induction with
  | _ t ih =>
    intro b h
    rcases scan_cases (m := m) t with rfl | ⟨r, rfl⟩ | ⟨c, r, rfl, hnp⟩
    · rw [ReplaceAll_nil w hmne]; rfl
    · obtain ⟨_, h2, h3, _, _⟩ := delimitedFrom_key_append hm hmne h
      rw [ReplaceAll_instance w r hmne]
      exact delimitedFrom_append_free hne (endsKey_ReplaceAll hm hmne w h2)
        (ih r (by have := List.length_pos.2 hmne; simp; omega) false h3) w hw b
    · have h' := (delimitedFrom_cons markers b c r).1 h
      rw [ReplaceAll_cons w c r hmne hnp, delimitedFrom_cons]
      refine ⟨?_, ih r (by simp) _ h'.2⟩
      intro k hk hp
      have hp' : k <+: c :: r := (key_prefix_ReplaceAll_iff hm hmne hk w h).1 hp
      refine ⟨(h'.1 k hk hp').1, ?_⟩
      obtain ⟨y, hy⟩ := hp'
      have hkm : m ≠ k := by
        rintro rfl
        exact hnp ⟨y, hy⟩
      rw [← hy] at h
      obtain ⟨_, h2, _, _, _⟩ := delimitedFrom_key_append hk (hne k hk) h
      have hR : c :: ReplaceAll r m w = k ++ ReplaceAll y m w := by
        rw [← ReplaceAll_cons w c r hmne hnp, ← hy]
        exact ReplaceAll_append_of_no_start w hmne y k
          (no_start_in_key hk (hne k hk) hm hkm h)
      rw [hR, List.drop_left]
      exact endsKey_ReplaceAll hm hmne w h2

/-- In a delimited text the replacements of two keys by words that contain
neither commute. -/
theorem ReplaceAll_comm_of_delimited {markers : WordlistData} {m k w w' : GoString}
    (hm : m ∈ keys markers) (hmne : m ≠ []) (hk : k ∈ keys markers) (hkne : k ≠ [])
    (hmk : m ≠ k) (hw : Contains w k = false) (hw' : Contains w' m = false) :
    ∀ t b, delimitedFrom markers b t = true →
      ReplaceAll (ReplaceAll t m w) k w' = ReplaceAll (ReplaceAll t k w') m w := by
  intro t
  induction t using length_induction with
  | _ t ih =>
    intro b h
    rcases scan_cases (m := m) t with rfl | ⟨r, rfl⟩ | ⟨c, r, rfl, hnp⟩
    · rw [ReplaceAll_nil w hmne, ReplaceAll_nil w' hkne, ReplaceAll_nil w hmne]
    · obtain ⟨_, h2, h3, _, _⟩ := delimitedFrom_key_append hm hmne h
      rw [ReplaceAll_instance w r hmne,
        ReplaceAll_append_of_no_start w' hkne _ w
          (no_start_of_not_Contains hk hw (endsKey_ReplaceAll hm hmne w h2)),
        ReplaceAll_append_of_no_start w' hkne r m
          (no_start_in_key hm hmne hk (Ne.symm hmk) h),
        ReplaceAll_instance w _ hmne,
        ih r (by have := List.length_pos.2 hmne; simp; omega) false h3]
    · rcases scan_cases (m := k) (c :: r) with h0 | ⟨r', hr'⟩ | ⟨c', r'', hr'', hnp'⟩
      · simp at h0
      · rw [hr'] at h
        obtain ⟨_, h2, h3, _, _⟩ := delimitedFrom_key_append hk hkne h
        rw [hr', ReplaceAll_instance w' r' hkne,
          ReplaceAll_append_of_no_start w hmne _ w'
            (no_start_of_not_Contains hm hw' (endsKey_ReplaceAll hk hkne w' h2)),
          ReplaceAll_append_of_no_start w hmne r' k
            (no_start_in_key hk hkne hm hmk h),
          ReplaceAll_instance w' _ hkne,
          ih r' (by have := List.length_pos.2 hkne; rw [hr']; simp; omega) false h3]
      · obtain ⟨rfl, rfl⟩ := List.cons.inj hr''
        have h1 : ¬ k <+: c :: ReplaceAll r m w :=
          fun hx => hnp' ((key_prefix_ReplaceAll_iff hm hmne hk w h).1 hx)
        have h2 : ¬ m <+: c :: ReplaceAll r k w' :=
          fun hx => hnp ((key_prefix_ReplaceAll_iff hk hkne hm w' h).1 hx)
        rw [ReplaceAll_cons w c r hmne hnp, ReplaceAll_cons w' c r hkne hnp',
          ReplaceAll_cons w' c _ hkne h1, ReplaceAll_cons w c _ hmne h2,
          ih r (by simp) _ ((delimitedFrom_cons markers b c r).1 h).2]

/-! ## Facts about `generateTargets` -/

theorem findMarker_of_absent (t : GoString) :
    ∀ order : List GoString, (∀ m ∈ order, Contains t m = false) → findMarker t order = [] := by
  intro order
  induction order with
  | nil => intro _; rfl
  | cons m rest ih =>
    intro h
    have hm : Contains t m = false := h m (by simp)
    simp only [findMarker, hm, Bool.false_eq_true, if_false]
    exact ih (fun k hk => h k (by simp [hk]))

theorem findMarker_mem (t : GoString) :
    ∀ order : List GoString, findMarker t order ≠ [] →
      findMarker t order ∈ order ∧ Contains t (findMarker t order) = true := by
  intro order
  induction order with
  | nil => intro h; exact absurd rfl h
  | cons m rest ih =>
    intro h
    by_cases hm : Contains t m = true
    · simp only [findMarker, hm, if_true]
      exact ⟨by simp, trivial⟩
    · simp only [findMarker, hm, if_false] at h ⊢
      exact ⟨List.mem_cons_of_mem _ (ih h).1, (ih h).2⟩

theorem absent_of_findMarker_nil (t : GoString) :
    ∀ order : List GoString, (∀ m ∈ order, m ≠ []) → findMarker t order = [] →
      ∀ m ∈ order, Contains t m = false := by
  intro order
  induction order with
  | nil => intro _ _ m hm; simp at hm
  | cons k rest ih =>
    intro hne h m hm
    by_cases hk : Contains t k = true
    · simp only [findMarker, hk, if_true] at h
      exact absurd h (hne k (by simp))
    · simp only [findMarker, hk, if_false] at h
      rcases List.mem_cons.1 hm with rfl | hm'
      · simpa using hk
      · exact ih (fun k' hk' => hne k' (by simp [hk'])) h m hm'

theorem generateTargets_zero (markers : WordlistData) (σ : List Nat → List GoString)
    (t : GoString) : generateTargets markers 0 σ t = none := rfl

theorem generateTargets_succ (markers : WordlistData) (fuel : Nat)
    (σ : List Nat → List GoString) (t : GoString) :
    generateTargets markers (fuel + 1) σ t =
      if findMarker t (σ []) = [] then some [t]
      else appendLoop
        (fun i word => generateTargets markers fuel (fun p => σ (i :: p))
          (ReplaceAll t (findMarker t (σ [])) word))
        0 (wordsOf markers (findMarker t (σ []))) [] := rfl

/-- When every call returns, the loop returns the concatenation of their results. -/
theorem appendLoop_of_forall (call : Nat → GoString → Option (List GoString))
    (Q : GoString → List GoString → Prop) :
    ∀ (words : List GoString) (i : Nat) (results : List GoString),
      (∀ j w, w ∈ words → ∃ rs, call j w = some rs ∧ Q w rs) →
      ∃ rss : List (List GoString),
        appendLoop call i words results = some (results ++ rss.flatten) ∧
        List.Forall₂ Q words rss := by
  intro words
  induction words with
  | nil =>
    intro i results _
    exact ⟨[], by simp [appendLoop], List.Forall₂.nil⟩
  | cons w rest ih =>
    intro i results h
    obtain ⟨rs, hrs, hq⟩ := h i w (by simp)
    obtain ⟨rss, hrss, hall⟩ :=
      ih (i + 1) (results ++ rs) (fun j v hv => h j v (by simp [hv]))
    refine ⟨rs :: rss, ?_, List.Forall₂.cons hq hall⟩
    simp only [appendLoop, hrs, hrss, List.flatten_cons, List.append_assoc]

/-- Whatever the loop returns comes from the initial results or from a call. -/
theorem mem_of_appendLoop {call : Nat → GoString → Option (List GoString)} :
    ∀ (words : List GoString) (i : Nat) (results out : List GoString),
      appendLoop call i words results = some out →
      ∀ r ∈ out, r ∈ results ∨ ∃ j w rs, w ∈ words ∧ call j w = some rs ∧ r ∈ rs := by
  intro words
  induction words with
  | nil =>
    intro i results out h r hr
    simp only [appendLoop, Option.some.injEq] at h
    exact Or.inl (h ▸ hr)
  | cons w rest ih =>
    intro i results out h r hr
    simp only [appendLoop] at h
    cases hc : call i w with
    | none => simp [hc] at h
    | some rs =>
      simp only [hc] at h
      rcases ih (i + 1) (results ++ rs) out h r hr with h1 | ⟨j, v, rs', hv, hcall, hmem⟩
      · rcases List.mem_append.1 h1 with h2 | h2
        · exact Or.inl h2
        · exact Or.inr ⟨i, w, rs, by simp, hc, h2⟩
      · exact Or.inr ⟨j, v, rs', by simp [hv], hcall, hmem⟩

theorem IterOrder.shift {markers : WordlistData} {σ : List Nat → List GoString}
    (h : IterOrder markers σ) (i : Nat) : IterOrder markers (fun p => σ (i :: p)) :=
  fun p => h (i :: p)

theorem IterOrder.mem_iff {markers : WordlistData} {σ : List Nat → List GoString}
    (h : IterOrder markers σ) (p : List Nat) (m : GoString) :
    m ∈ σ p ↔ m ∈ keys markers := (h p).mem_iff

/-- A template without any key is returned as it is. -/
theorem generateTargets_of_absent {markers : WordlistData} {σ : List Nat → List GoString}
    {t : GoString} (hσ : IterOrder markers σ) (fuel : Nat)
    (habsent : ∀ m ∈ keys markers, Contains t m = false) :
    generateTargets markers (fuel + 1) σ t = some [t] := by
  rw [generateTargets_succ,
    findMarker_of_absent t (σ []) (fun m hm => habsent m ((hσ.mem_iff [] m).1 hm))]
  rfl

/-- Every returned target is free of the (non-empty) markers of the mapping. -/
theorem absent_of_generateTargets {markers : WordlistData} (hne : ∀ m ∈ keys markers, m ≠ []) :
    ∀ (fuel : Nat) (σ : List Nat → List GoString) (t : GoString) (rs : List GoString),
      IterOrder markers σ → generateTargets markers fuel σ t = some rs →
      ∀ r ∈ rs, ∀ m ∈ keys markers, Contains r m = false := by
  intro fuel
  induction fuel with
  | zero => intro σ t rs _ h; simp [generateTargets_zero] at h
  | succ fuel ih =>
    intro σ t rs hσ h r hr m hm
    rw [generateTargets_succ] at h
    by_cases hf : findMarker t (σ []) = []
    · rw [if_pos hf] at h
      simp only [Option.some.injEq] at h
      subst h
      simp only [List.mem_singleton] at hr
      subst hr
      exact absent_of_findMarker_nil r (σ [])
        (fun k hk => hne k ((hσ.mem_iff [] k).1 hk)) hf m ((hσ.mem_iff [] m).2 hm)
    · rw [if_neg hf] at h
      rcases mem_of_appendLoop _ _ _ _ h r hr with h1 | ⟨j, w, rs', _, hcall, hmem⟩
      · simp at h1
      · exact ih _ _ rs' (hσ.shift j) hcall r hmem m hm

/-- The loop returns the same list when every call that returned still returns
the same list. -/
theorem appendLoop_mono {call call' : Nat → GoString → Option (List GoString)}
    (h : ∀ i w rs, call i w = some rs → call' i w = some rs) :
    ∀ (words : List GoString) (i : Nat) (results out : List GoString),
      appendLoop call i words results = some out →
      appendLoop call' i words results = some out := by
  intro words
  induction words with
  | nil => intro i results out hout; exact hout
  | cons w rest ih =>
    intro i results out hout
    simp only [appendLoop] at hout ⊢
    cases hc : call i w with
    | none => simp [hc] at hout
    | some rs =>
      simp only [hc] at hout
      simp only [h i w rs hc]
      exact ih _ _ _ hout

/-- A larger budget does not change what `generateTargets` returns. -/
theorem generateTargets_mono (markers : WordlistData) :
    ∀ (fuel : Nat) (σ : List Nat → List GoString) (t : GoString) (rs : List GoString),
      generateTargets markers fuel σ t = some rs →
      generateTargets markers (fuel + 1) σ t = some rs := by
  intro fuel
  induction fuel with
  | zero => intro σ t rs h; simp [generateTargets_zero] at h
  | succ fuel ih =>
    intro σ t rs h
    rw [generateTargets_succ] at h ⊢
    by_cases hf : findMarker t (σ []) = []
    · rw [if_pos hf] at h ⊢; exact h
    · rw [if_neg hf] at h ⊢
      exact appendLoop_mono (fun i w rs' h' => ih _ _ _ h') _ _ _ _ h

/-! ## The expansion is the Cartesian product -/

theorem expand_cons (m : GoString) (ws : List GoString) (rest : WordlistData) (t : GoString) :
    expand ((m, ws) :: rest) t = ws.flatMap (fun w => expand rest (ReplaceAll t m w)) := by
  simp only [expand, choices, List.map_flatMap, List.map_map]
  rfl

theorem length_expand : ∀ (U : WordlistData) (t : GoString),
    (expand U t).length = (U.map (fun e => e.2.length)).prod := by
  intro U
  induction U with
  | nil => intro t; rfl
  | cons e rest ih =>
    intro t
    obtain ⟨m, ws⟩ := e
    rw [expand_cons, List.length_flatMap, List.map_cons, List.prod_cons]
    have : List.map (List.length ∘ fun w => expand rest (ReplaceAll t m w)) ws =
        List.replicate ws.length ((rest.map (fun e => e.2.length)).prod) := by
      rw [List.eq_replicate_iff]
      refine ⟨by simp, ?_⟩
      intro b hb
      obtain ⟨w, _, rfl⟩ := List.mem_map.1 hb
      exact ih _
    rw [this, List.sum_replicate, smul_eq_mul]

theorem flatMap_comm_perm {α β γ : Type} (l₁ : List α) (l₂ : List β) (f : α → β → List γ) :
    (l₁.flatMap (fun a => l₂.flatMap (fun b => f a b))).Perm
      (l₂.flatMap (fun b => l₁.flatMap (fun a => f a b))) := by
  induction l₁ with
  | nil => simp
  | cons a l₁ ih =>
    simp only [List.flatMap_cons]
    exact ((List.Perm.refl _).append ih).trans (List.flatMap_append_perm l₂ _ _)

/-- Expanding one used marker first, whichever it is, gives the same targets
up to order. -/
theorem expand_perm_pick {markers : WordlistData} {Inv : GoString → Prop}
    (hS : Stable markers Inv)
    {m : GoString} {ws : List GoString} (hm : (m, ws) ∈ markers) (B : WordlistData) :
    ∀ (A : WordlistData), (∀ e ∈ A, e ∈ markers ∧ e.1 ≠ m) → ∀ t, Inv t →
      (expand (A ++ (m, ws) :: B) t).Perm
        (ws.flatMap (fun w => expand (A ++ B) (ReplaceAll t m w))) := by
  intro A
  induction A with
  | nil => intro _ t _; rw [List.nil_append, expand_cons]; rfl
  | cons e A ih =>
    intro hAm t ht
    obtain ⟨m0, ws0⟩ := e
    have he : (m0, ws0) ∈ markers := (hAm (m0, ws0) (by simp)).1
    have hne : m0 ≠ m := (hAm (m0, ws0) (by simp)).2
    have hA' : ∀ e ∈ A, e ∈ markers ∧ e.1 ≠ m := fun e he => hAm e (by simp [he])
    rw [List.cons_append, expand_cons]
    have h1 : (ws0.flatMap (fun w0 => expand (A ++ (m, ws) :: B) (ReplaceAll t m0 w0))).Perm
        (ws0.flatMap (fun w0 => ws.flatMap
          (fun w => expand (A ++ B) (ReplaceAll (ReplaceAll t m0 w0) m w)))) :=
      List.Perm.flatMap_left _ (fun w0 hw0 => ih hA' _ (hS.step t ht (m0, ws0) he w0 hw0))
    refine h1.trans ((flatMap_comm_perm ws0 ws _).trans ?_)
    apply List.Perm.flatMap_left
    intro w hw
    rw [List.cons_append, expand_cons]
    apply List.Perm.flatMap_left
    intro w0 hw0
    rw [hS.comm t ht (m0, ws0) he w0 hw0 (m, ws) hm w hw hne]

theorem flatten_perm_flatMap {Q : GoString → List GoString}  :
    ∀ (ws : List GoString) (rss : List (List GoString)),
      List.Forall₂ (fun w rs => rs.Perm (Q w)) ws rss → rss.flatten.Perm (ws.flatMap Q) := by
  intro ws rss h
  induction h with
  | nil => simp
  | cons h _ ih => simp only [List.flatten_cons, List.flatMap_cons]; exact h.append ih

theorem mem_of_mem_keys {markers : WordlistData} {m : GoString} (h : m ∈ keys markers) :
    (m, wordsOf markers m) ∈ markers := by
  induction markers with
  | nil => simp [keys] at h
  | cons e rest ih =>
    obtain ⟨m0, ws0⟩ := e
    by_cases hm : m = m0
    · subst hm
      simp [wordsOf, List.lookup]
    · have : (m == m0) = false := by simpa using hm
      have h' : m ∈ keys rest := by
        simp only [keys, List.map_cons, List.mem_cons] at h
        rcases h with h | h
        · exact absurd h hm
        · exact h
      have := ih h'
      simp only [wordsOf, List.lookup, *] at this ⊢
      exact List.mem_cons_of_mem _ this

theorem usedMarkers_eq_nil {markers : WordlistData} {t : GoString}
    (h : ∀ m ∈ keys markers, Contains t m = false) : usedMarkers markers t = [] := by
  unfold usedMarkers
  rw [List.filter_eq_nil_iff]
  intro e he
  have := h e.1 (List.mem_map.2 ⟨e, he, rfl⟩)
  simp [this]

theorem split_usedMarkers {markers : WordlistData} (hnd : (keys markers).Nodup)
    {t m : GoString} {ws : List GoString} (hm : (m, ws) ∈ markers)
    (hc : Contains t m = true) :
    ∃ A B, usedMarkers markers t = A ++ (m, ws) :: B ∧
      (∀ e ∈ A, e ∈ markers ∧ e.1 ≠ m) ∧ (∀ e ∈ B, e ∈ markers ∧ e.1 ≠ m) := by
  have hmem : (m, ws) ∈ usedMarkers markers t := List.mem_filter.2 ⟨hm, by simpa using hc⟩
  obtain ⟨A, B, hAB⟩ := List.append_of_mem hmem
  have hsub : ∀ e ∈ usedMarkers markers t, e ∈ markers := fun e he => (List.mem_filter.1 he).1
  have hnd' : ((usedMarkers markers t).map Prod.fst).Nodup :=
    hnd.sublist ((List.filter_sublist _).map _)
  rw [hAB, List.map_append, List.map_cons] at hnd'
  have h1 := List.nodup_middle.1 hnd'
  rw [List.nodup_cons, List.mem_append] at h1
  refine ⟨A, B, hAB, ?_, ?_⟩
  · intro e he
    refine ⟨hsub e (hAB ▸ List.mem_append_left _ he), ?_⟩
    intro h
    exact h1.1 (Or.inl (List.mem_map.2 ⟨e, he, h⟩))
  · intro e he
    refine ⟨hsub e (hAB ▸ List.mem_append_right _ (List.mem_cons_of_mem _ he)), ?_⟩
    intro h
    exact h1.1 (Or.inr (List.mem_map.2 ⟨e, he, h⟩))

/-- After the replacement of a used marker, the markers used are the other ones. -/
theorem usedMarkers_ReplaceAll {markers : WordlistData} {Inv : GoString → Prop}
    (hS : Stable markers Inv) {t : GoString} (ht : Inv t)
    {m w : GoString} {ws : List GoString} (hm : (m, ws) ∈ markers) (hw : w ∈ ws)
    {A B : WordlistData} (hAB : usedMarkers markers t = A ++ (m, ws) :: B)
    (hAm : ∀ e ∈ A, e ∈ markers ∧ e.1 ≠ m) (hBm : ∀ e ∈ B, e ∈ markers ∧ e.1 ≠ m) :
    usedMarkers markers (ReplaceAll t m w) = A ++ B := by
  have h1 : usedMarkers markers (ReplaceAll t m w) =
      (usedMarkers markers t).filter (fun e => decide (e.1 ≠ m)) := by
    unfold usedMarkers
    rw [List.filter_filter]
    apply List.filter_congr
    intro e he
    have hek : e.1 ∈ keys markers := List.mem_map.2 ⟨e, he, rfl⟩
    by_cases hem : e.1 = m
    · rw [hem, hS.self t ht (m, ws) hm w hw]
      simp
    · rw [hS.other t ht (m, ws) hm w hw e.1 hek hem]
      simp [hem]
  rw [h1, hAB, List.filter_append, List.filter_cons]
  have hA' : A.filter (fun e => decide (e.1 ≠ m)) = A :=
    List.filter_eq_self.2 (fun e he => by simpa using (hAm e he).2)
  have hB' : B.filter (fun e => decide (e.1 ≠ m)) = B :=
    List.filter_eq_self.2 (fun e he => by simpa using (hBm e he).2)
  rw [hA', hB']
  simp

/-- With distinct non-empty keys, on a template with a stable property and with
a budget above the number of markers used, `generateTargets` returns the
Cartesian product up to order, whatever the iteration orders. -/
theorem generateTargets_perm_cartesian {markers : WordlistData} {Inv : GoString → Prop}
    (hnd : (keys markers).Nodup) (hne : ∀ m ∈ keys markers, m ≠ [])
    (hS : Stable markers Inv) :
    ∀ (fuel : Nat) (σ : List Nat → List GoString) (t : GoString),
      IterOrder markers σ → Inv t → (usedMarkers markers t).length < fuel →
      ∃ rs, generateTargets markers fuel σ t = some rs ∧
        rs.Perm (cartesianTargets markers t) := by
  intro fuel
  induction fuel with
  | zero => intro σ t _ _ h; simp at h
  | succ fuel ih =>
    intro σ t hσ ht hlen
    rw [generateTargets_succ]
    by_cases hf : findMarker t (σ []) = []
    · rw [if_pos hf]
      have habs := absent_of_findMarker_nil t (σ [])
        (fun k hk => hne k ((hσ.mem_iff [] k).1 hk)) hf
      have hu := @usedMarkers_eq_nil markers t
        (fun m hm => habs m ((hσ.mem_iff [] m).2 hm))
      refine ⟨[t], rfl, ?_⟩
      unfold cartesianTargets
      rw [hu]
      exact List.Perm.refl _
    · rw [if_neg hf]
      obtain ⟨hmem, hc⟩ := findMarker_mem t (σ []) hf
      generalize findMarker t (σ []) = m at hmem hc hf
      have hmk : m ∈ keys markers := (hσ.mem_iff [] m).1 hmem
      have hm : (m, wordsOf markers m) ∈ markers := mem_of_mem_keys hmk
      generalize wordsOf markers m = ws at hm
      obtain ⟨A, B, hAB, hAm, hBm⟩ := split_usedMarkers hnd hm hc
      have hlen' : (A ++ B).length < fuel := by
        rw [hAB] at hlen
        simp only [List.length_append, List.length_cons] at hlen ⊢
        omega
      have hcalls : ∀ j w, w ∈ ws →
          ∃ rs, generateTargets markers fuel (fun p => σ (j :: p)) (ReplaceAll t m w) = some rs ∧
            rs.Perm (expand (A ++ B) (ReplaceAll t m w)) := by
        intro j w hw
        have hu := usedMarkers_ReplaceAll hS ht hm hw hAB hAm hBm
        obtain ⟨rs, hrs, hperm⟩ := ih (fun p => σ (j :: p)) (ReplaceAll t m w) (hσ.shift j)
          (hS.step t ht (m, ws) hm w hw) (by rw [hu]; exact hlen')
        refine ⟨rs, hrs, ?_⟩
        unfold cartesianTargets at hperm
        rw [hu] at hperm
        exact hperm
      obtain ⟨rss, hrss, hall⟩ := appendLoop_of_forall
        (fun i word => generateTargets markers fuel (fun p => σ (i :: p))
          (ReplaceAll t m word))
        (fun w rs => rs.Perm (expand (A ++ B) (ReplaceAll t m w))) ws 0 [] hcalls
      refine ⟨rss.flatten, by simpa using hrss, ?_⟩
      unfold cartesianTargets
      rw [hAB]
      exact (flatten_perm_flatMap ws rss hall).trans (expand_perm_pick hS hm B A hAm t ht).symm

/-- Keys and words that cannot overlap make every template stable. -/
theorem stable_of_cannotOverlap {markers : WordlistData}
    (hne : ∀ m ∈ keys markers, m ≠ []) (h : CannotOverlap markers) :
    Stable markers (fun _ => True) where
  step := fun _ _ _ _ _ _ => trivial
  self := fun t _ e he w hw =>
    have hek : e.1 ∈ keys markers := List.mem_map.2 ⟨e, he, rfl⟩
    Contains_ReplaceAll_self_apart (hne e.1 hek) (h.2 e he w hw e.1 hek).1
      (h.2 e he w hw e.1 hek).2 t
  other := fun t _ e he w hw k hk hke =>
    have hek : e.1 ∈ keys markers := List.mem_map.2 ⟨e, he, rfl⟩
    Contains_ReplaceAll_other (hne e.1 hek) (h.1 e.1 hek k hk (Ne.symm hke))
      (h.1 k hk e.1 hek hke) (h.2 e he w hw k hk).2 (h.2 e he w hw k hk).1 t
  comm := fun t _ e he w hw e' he' w' hw' hee =>
    have hek : e.1 ∈ keys markers := List.mem_map.2 ⟨e, he, rfl⟩
    have hek' : e'.1 ∈ keys markers := List.mem_map.2 ⟨e', he', rfl⟩
    ReplaceAll_comm (hne e.1 hek) (hne e'.1 hek')
      (h.1 e.1 hek e'.1 hek' hee) (h.1 e'.1 hek' e.1 hek (Ne.symm hee))
      (h.2 e he w hw e'.1 hek').2 (h.2 e he w hw e'.1 hek').1
      (h.2 e' he' w' hw' e.1 hek).2 (h.2 e' he' w' hw' e.1 hek).1 t

/-- Words that contain no key make the delimited templates stable. -/
theorem stable_of_delimited {markers : WordlistData}
    (hne : ∀ m ∈ keys markers, m ≠ [])
    (h : ∀ e ∈ markers, ∀ w ∈ e.2, ∀ k ∈ keys markers, Contains w k = false) :
    Stable markers (fun t => delimitedFrom markers true t = true) where
  step := fun t ht e he w hw =>
    have hek : e.1 ∈ keys markers := List.mem_map.2 ⟨e, he, rfl⟩
    delimitedFrom_ReplaceAll hne hek (h e he w hw) t true ht
  self := fun t ht e he w hw =>
    have hek : e.1 ∈ keys markers := List.mem_map.2 ⟨e, he, rfl⟩
    Contains_ReplaceAll_self_of_delimited hek (hne e.1 hek) (h e he w hw e.1 hek) t true ht
  other := fun t ht e he w hw k hk hke =>
    have hek : e.1 ∈ keys markers := List.mem_map.2 ⟨e, he, rfl⟩
    Contains_ReplaceAll_other_of_delimited hek (hne e.1 hek) hk hke (h e he w hw k hk) t true ht
  comm := fun t ht e he w hw e' he' w' hw' hee =>
    have hek : e.1 ∈ keys markers := List.mem_map.2 ⟨e, he, rfl⟩
    have hek' : e'.1 ∈ keys markers := List.mem_map.2 ⟨e', he', rfl⟩
    ReplaceAll_comm_of_delimited hek (hne e.1 hek) hek' (hne e'.1 hek') hee
      (h e he w hw e'.1 hek') (h e' he' w' hw' e.1 hek) t true ht

/-- On an admissible mapping and template, with a budget above the number of
keys, `generateTargets` returns the Cartesian product up to order, whatever the
iteration orders. -/
theorem generateTargets_perm_of_admissible {markers : WordlistData} {t : GoString}
    (hA : Admissible markers t) (fuel : Nat) (σ : List Nat → List GoString)
    (hσ : IterOrder markers σ) (hfuel : markers.length < fuel) :
    ∃ rs, generateTargets markers fuel σ t = some rs ∧
      rs.Perm (cartesianTargets markers t) := by
  have hlen : (usedMarkers markers t).length < fuel :=
    lt_of_le_of_lt (List.length_filter_le _ _) hfuel
  rcases hA.safe with h | h
  · exact generateTargets_perm_cartesian hA.nodup hA.nonempty
      (stable_of_cannotOverlap hA.nonempty h) fuel σ t hσ trivial hlen
  · exact generateTargets_perm_cartesian hA.nodup hA.nonempty
      (stable_of_delimited hA.nonempty h.1) fuel σ t hσ h.2 hlen

theorem length_usedMarkers_le (markers : WordlistData) (t : GoString) :
    (usedMarkers markers t).length ≤ markers.length :=
  List.length_filter_le _ _

theorem length_cartesianTargets (markers : WordlistData) (t : GoString) :
    (cartesianTargets markers t).length = expansionCount markers t :=
  length_expand _ _

/-! ## Termination -/

theorem startsInWord_iff (markers : WordlistData) (x : GoString) :
    startsInWord markers x = true ↔
      ∃ e ∈ markers, ∃ w ∈ e.2, ∃ s, s <:+ w ∧ s ≠ [] ∧ s <+: x := by
  unfold startsInWord
  simp only [List.any_eq_true, Bool.and_eq_true, Bool.not_eq_true', List.isEmpty_eq_false,
    List.mem_tails, List.isPrefixOf_iff_prefix]

theorem freeCount_cons (markers : WordlistData) (c : Char) (r : GoString) :
    freeCount markers (c :: r) =
      (if startsInWord markers (c :: r) then 0 else 1) + freeCount markers r := rfl

theorem freeCount_le_length (markers : WordlistData) :
    ∀ t : GoString, freeCount markers t ≤ t.length := by
  intro t
  induction t with
  | nil => exact Nat.le_refl 0
  | cons c r ih =>
    rw [freeCount_cons, List.length_cons]
    split <;> omega

theorem freeCount_le_append (markers : WordlistData) (r : GoString) :
    ∀ u : GoString, freeCount markers r ≤ freeCount markers (u ++ r) := by
  intro u
  induction u with
  | nil => exact Nat.le_refl _
  | cons c u ih =>
    rw [List.cons_append, freeCount_cons]
    omega

/-- Inside a word no position is free. -/
theorem freeCount_word_append {markers : WordlistData} {e : GoString × List GoString}
    (he : e ∈ markers) {w : GoString} (hw : w ∈ e.2) (x : GoString) :
    ∀ s, s <:+ w → freeCount markers (s ++ x) = freeCount markers x := by
  intro s
  induction s with
  | nil => intro _; rfl
  | cons c s ih =>
    intro hs
    have hdead : startsInWord markers (c :: (s ++ x)) = true :=
      (startsInWord_iff _ _).2
        ⟨e, he, w, hw, c :: s, hs, List.cons_ne_nil c s, ⟨x, rfl⟩⟩
    rw [List.cons_append, freeCount_cons, if_pos hdead, Nat.zero_add,
      ih ((List.suffix_cons c s).trans hs)]

/-- A position at which a key starts is free, when no key can begin inside a word. -/
theorem not_startsInWord_of_key {markers : WordlistData}
    (hD : ∀ e ∈ markers, ∀ w ∈ e.2, ∀ k ∈ keys markers, Apart k w)
    {k : GoString} (hk : k ∈ keys markers) {x : GoString} (hx : k <+: x) :
    startsInWord markers x = false := by
  rw [Bool.eq_false_iff, Ne, startsInWord_iff]
  rintro ⟨e, he, w, hw, s, hs, hne, hp⟩
  have h1 := hD e he w hw k hk s ((List.mem_tails _ _).2 hs) hne
  rcases List.prefix_or_prefix_of_prefix hx hp with h2 | h2
  · exact h1.1 h2
  · exact h1.2 h2

/-- A position that is not free stays so behind the scan, when no key can begin
inside a word. -/
theorem startsInWord_ReplaceAll {markers : WordlistData}
    (hD : ∀ e ∈ markers, ∀ w ∈ e.2, ∀ k ∈ keys markers, Apart k w)
    {m : GoString} (hmk : m ∈ keys markers) (hm : m ≠ []) (v x : GoString)
    (hx : startsInWord markers x = true) :
    startsInWord markers (ReplaceAll x m v) = true := by
  rw [startsInWord_iff] at hx ⊢
  obtain ⟨e, he, w, hw, s, hs, hne, y, rfl⟩ := hx
  refine ⟨e, he, w, hw, s, hs, hne, ?_⟩
  rw [ReplaceAll_append_of_apart v hm (hD e he w hw m hmk) y s hs]
  exact List.prefix_append _ _

theorem freeCount_ReplaceAll_le {markers : WordlistData}
    (hD : ∀ e ∈ markers, ∀ w ∈ e.2, ∀ k ∈ keys markers, Apart k w)
    {m : GoString} (hmk : m ∈ keys markers) (hm : m ≠ [])
    {e : GoString × List GoString} (he : e ∈ markers) {w : GoString} (hw : w ∈ e.2) :
    ∀ t, freeCount markers (ReplaceAll t m w) ≤ freeCount markers t := by
  intro t
  induction t using length_induction with
  | _ t ih =>
    rcases scan_cases (m := m) t with rfl | ⟨r, rfl⟩ | ⟨c, r, rfl, hnp⟩
    · rw [ReplaceAll_nil w hm]
    · rw [ReplaceAll_instance w r hm, freeCount_word_append he hw _ w (List.suffix_refl w)]
      have h1 := ih r (by have := List.length_pos.2 hm; simp; omega)
      have h2 := freeCount_le_append markers r m
      omega
    · have h1 := ih r (by simp)
      have h2 := startsInWord_ReplaceAll hD hmk hm w (c :: r)
      rw [ReplaceAll_cons w c r hm hnp] at h2 ⊢
      rw [freeCount_cons, freeCount_cons]
      by_cases hd : startsInWord markers (c :: r) = true
      · rw [if_pos hd, if_pos (h2 hd)]; omega
      · rw [if_neg hd]; split <;> omega

/-- Replacing a key that occurs lowers the number of free positions, when no key
can begin inside a word. -/
theorem freeCount_ReplaceAll_lt {markers : WordlistData}
    (hD : ∀ e ∈ markers, ∀ w ∈ e.2, ∀ k ∈ keys markers, Apart k w)
    {m : GoString} (hmk : m ∈ keys markers) (hm : m ≠ [])
    {e : GoString × List GoString} (he : e ∈ markers) {w : GoString} (hw : w ∈ e.2) :
    ∀ t, Contains t m = true →
      freeCount markers (ReplaceAll t m w) < freeCount markers t := by
  intro t
  induction t using length_induction with
  | _ t ih =>
    intro hc
    rcases scan_cases (m := m) t with rfl | ⟨r, rfl⟩ | ⟨c, r, rfl, hnp⟩
    · rw [Contains_nil_left hm] at hc
      exact absurd hc (by simp)
    · rw [ReplaceAll_instance w r hm, freeCount_word_append he hw _ w (List.suffix_refl w)]
      have h1 := freeCount_ReplaceAll_le hD hmk hm he hw r
      obtain ⟨a, o, rfl⟩ := List.exists_cons_of_ne_nil hm
      have h2 : startsInWord markers (a :: o ++ r) = false :=
        not_startsInWord_of_key hD hmk ⟨r, rfl⟩
      have h3 := freeCount_le_append markers r o
      rw [List.cons_append, freeCount_cons]
      rw [List.cons_append] at h2
      rw [h2]
      simp only [Bool.false_eq_true, if_false]
      omega
    · have h2 := startsInWord_ReplaceAll hD hmk hm w (c :: r)
      rw [ReplaceAll_cons w c r hm hnp] at h2 ⊢
      rw [Contains_cons] at hc
      have hnp' : m.isPrefixOf (c :: r) = false := by
        rw [Bool.eq_false_iff, Ne, List.isPrefixOf_iff_prefix]; exact hnp
      rw [hnp', Bool.false_or] at hc
      have h1 := ih r (by simp) hc
      rw [freeCount_cons, freeCount_cons]
      by_cases hd : startsInWord markers (c :: r) = true
      · rw [if_pos hd, if_pos (h2 hd)]; omega
      · rw [if_neg hd]; split <;> omega

/-- With non-empty keys none of which can begin inside a word, a budget above
the number of free positions of the template is enough. -/
theorem generateTargets_isSome {markers : WordlistData} (hne : ∀ m ∈ keys markers, m ≠ [])
    (hD : ∀ e ∈ markers, ∀ w ∈ e.2, ∀ k ∈ keys markers, Apart k w) :
    ∀ (fuel : Nat) (σ : List Nat → List GoString) (t : GoString),
      IterOrder markers σ → freeCount markers t < fuel →
      ∃ rs, generateTargets markers fuel σ t = some rs := by
  intro fuel
  induction fuel with
  | zero => intro σ t _ h; simp at h
  | succ fuel ih =>
    intro σ t hσ hlen
    rw [generateTargets_succ]
    by_cases hf : findMarker t (σ []) = []
    · rw [if_pos hf]; exact ⟨_, rfl⟩
    · rw [if_neg hf]
      obtain ⟨hmem, hc⟩ := findMarker_mem t (σ []) hf
      generalize findMarker t (σ []) = m at hmem hc hf
      have hmk : m ∈ keys markers := (hσ.mem_iff [] m).1 hmem
      have he : (m, wordsOf markers m) ∈ markers := mem_of_mem_keys hmk
      have hcalls : ∀ j w, w ∈ wordsOf markers m →
          ∃ rs, generateTargets markers fuel (fun p => σ (j :: p)) (ReplaceAll t m w) = some rs ∧
            True := by
        intro j w hw
        have := freeCount_ReplaceAll_lt hD hmk (hne m hmk) he hw t hc
        obtain ⟨rs, hrs⟩ := ih (fun p => σ (j :: p)) (ReplaceAll t m w) (hσ.shift j) (by omega)
        exact ⟨rs, hrs, trivial⟩
      obtain ⟨rss, hrss, _⟩ := appendLoop_of_forall
        (fun i word => generateTargets markers fuel (fun p => σ (i :: p))
          (ReplaceAll t m word))
        (fun _ _ => True) (wordsOf markers m) 0 [] hcalls
      exact ⟨_, hrss⟩

/-- The scan copies a stretch at no position of which an instance of `m` starts. -/
theorem ReplaceAll_append_of_no_instance {m : GoString} (w : GoString) (hm : m ≠ [])
    (y : GoString) : ∀ u : GoString, (∀ i, i < u.length → ¬ m <+: (u ++ y).drop i) →
      ReplaceAll (u ++ y) m w = u ++ ReplaceAll y m w := by
  intro u
  induction u with
  | nil => intro _; rfl
  | cons c u ih =>
    intro hu
    have h0 : ¬ m <+: c :: (u ++ y) := by simpa using hu 0 (by simp)
    rw [List.cons_append, ReplaceAll_cons w c (u ++ y) hm h0, List.cons_append, ih]
    intro i hi
    simpa using hu (i + 1) (by simpa using hi)

/-- The first instance of `old` is replaced and the scan goes on behind it, as
in the loop of `strings.Replace`. -/
theorem ReplaceAll_first_instance {old : GoString} (new a b : GoString) (hold : old ≠ [])
    (hfirst : ∀ i, i < a.length → ¬ old <+: (a ++ (old ++ b)).drop i) :
    ReplaceAll (a ++ (old ++ b)) old new = a ++ (new ++ ReplaceAll b old new) := by
  rw [ReplaceAll_append_of_no_instance new hold _ a hfirst, ReplaceAll_instance new b hold]

/-- A string without any instance of `old` is returned as it is. -/
theorem ReplaceAll_of_not_Contains {old : GoString} (new : GoString) (hold : old ≠ []) :
    ∀ s, Contains s old = false → ReplaceAll s old new = s := by
  intro s
  induction s with
  | nil => intro _; exact ReplaceAll_nil new hold
  | cons c cs ih =>
    intro h
    rw [Contains_cons, Bool.or_eq_false_iff] at h
    have hnp : ¬ old <+: c :: cs := by
      rw [← List.isPrefixOf_iff_prefix]; simp [h.1]
    rw [ReplaceAll_cons new c cs hold hnp, ih h.2]

/-! ## A mapping on which the expansion never ends -/

theorem ReplaceAll_replicate_b (w s : GoString) : ∀ i : Nat,
    ReplaceAll (List.replicate i 'b' ++ s) ['a', 'b'] w =
      List.replicate i 'b' ++ ReplaceAll s ['a', 'b'] w := by
  intro i
  induction i with
  | zero => rfl
  | succ i ih =>
    have hnp : ¬ ['a', 'b'] <+: 'b' :: (List.replicate i 'b' ++ s) := by
      intro h
      have := (List.cons_prefix_cons.1 h).1
      exact absurd this (by decide)
    rw [List.replicate_succ, List.cons_append, ReplaceAll_cons w _ _ (by simp) hnp, ih,
      List.cons_append]

theorem ReplaceAll_replicate_a (w : GoString) : ∀ j : Nat,
    ReplaceAll (List.replicate j 'a') ['a', 'b'] w = List.replicate j 'a' := by
  intro j
  induction j with
  | zero => exact ReplaceAll_nil w (by simp)
  | succ j ih =>
    have hnp : ¬ ['a', 'b'] <+: 'a' :: List.replicate j 'a' := by
      intro h
      have h1 := (List.cons_prefix_cons.1 h).2
      cases j with
      | zero => simp at h1
      | succ j =>
        rw [List.replicate_succ] at h1
        exact absurd (List.cons_prefix_cons.1 h1).1 (by decide)
    rw [List.replicate_succ, ReplaceAll_cons w _ _ (by simp) hnp, ih]

/-- The first step of the cycle: `b^i aab a^j` becomes `b^i abbaa a^j`. -/
theorem ReplaceAll_cycle_one (i j : Nat) :
    ReplaceAll (List.replicate i 'b' ++ ['a', 'a', 'b'] ++ List.replicate j 'a') ['a', 'b']
        ['b', 'b', 'a', 'a'] =
      List.replicate i 'b' ++ ['a', 'b', 'b', 'a', 'a'] ++ List.replicate j 'a' := by
  have hnp : ¬ ['a', 'b'] <+: 'a' :: (['a', 'b'] ++ List.replicate j 'a') := by
    intro h
    exact absurd (List.cons_prefix_cons.1 (List.cons_prefix_cons.1 h).2).1 (by decide)
  have h1 : ['a', 'a', 'b'] ++ List.replicate j 'a' =
      'a' :: (['a', 'b'] ++ List.replicate j 'a') := rfl
  rw [List.append_assoc, ReplaceAll_replicate_b, h1, ReplaceAll_cons _ _ _ (by simp) hnp,
    ReplaceAll_instance _ _ (by simp), ReplaceAll_replicate_a]
  simp

/-- The second step of the cycle: `b^i abbaa a^j` becomes `b^(i+2) aab a^(j+2)`. -/
theorem ReplaceAll_cycle_two (i j : Nat) :
    ReplaceAll (List.replicate i 'b' ++ ['a', 'b', 'b', 'a', 'a'] ++ List.replicate j 'a')
        ['a', 'b'] ['b', 'b', 'a', 'a'] =
      List.replicate (i + 2) 'b' ++ ['a', 'a', 'b'] ++ List.replicate (j + 2) 'a' := by
  have hnp : ¬ ['a', 'b'] <+: 'b' :: List.replicate (j + 2) 'a' := by
    intro h
    exact absurd (List.cons_prefix_cons.1 h).1 (by decide)
  have h1 : ['a', 'b', 'b', 'a', 'a'] ++ List.replicate j 'a' =
      ['a', 'b'] ++ ('b' :: List.replicate (j + 2) 'a') := by
    simp [List.replicate_succ]
  have h2 : List.replicate (i + 2) 'b' = List.replicate i 'b' ++ ['b', 'b'] := by
    rw [List.replicate_add]; rfl
  rw [List.append_assoc, ReplaceAll_replicate_b, h1, ReplaceAll_instance _ _ (by simp),
    ReplaceAll_cons _ _ _ (by simp) hnp, ReplaceAll_replicate_a, h2]
  simp

theorem Contains_of_eq_append {s m : GoString} (l r : GoString) (h : s = l ++ m ++ r) :
    Contains s m = true :=
  (Contains_iff_isInfix s m).2 ⟨l, r, h.symm⟩

/-- With the single marker `ab` and its single word `bbaa`, no budget is enough
on a template `b^i aab a^j` or `b^i abbaa a^j`. -/
theorem generateTargets_cycle :
    ∀ (fuel : Nat) (σ : List Nat → List GoString) (i j : Nat), (∀ p, σ p = [['a', 'b']]) →
      generateTargets [(['a', 'b'], [['b', 'b', 'a', 'a']])] fuel σ
          (List.replicate i 'b' ++ ['a', 'a', 'b'] ++ List.replicate j 'a') = none ∧
      generateTargets [(['a', 'b'], [['b', 'b', 'a', 'a']])] fuel σ
          (List.replicate i 'b' ++ ['a', 'b', 'b', 'a', 'a'] ++ List.replicate j 'a') = none := by
  intro fuel
  induction fuel with
  | zero => intro σ i j _; exact ⟨rfl, rfl⟩
  | succ fuel ih =>
    intro σ i j hσ
    have hσ' : ∀ k p, (fun p => σ (k :: p)) p = [['a', 'b']] := fun k p => hσ (k :: p)
    have hw : wordsOf [(['a', 'b'], [['b', 'b', 'a', 'a']])] ['a', 'b'] =
        [['b', 'b', 'a', 'a']] := by decide
    have hc1 : Contains (List.replicate i 'b' ++ ['a', 'a', 'b'] ++ List.replicate j 'a')
        ['a', 'b'] = true :=
      Contains_of_eq_append (List.replicate i 'b' ++ ['a']) (List.replicate j 'a') (by simp)
    have hc2 : Contains (List.replicate i 'b' ++ ['a', 'b', 'b', 'a', 'a'] ++
        List.replicate j 'a') ['a', 'b'] = true :=
      Contains_of_eq_append (List.replicate i 'b') (['b', 'a', 'a'] ++ List.replicate j 'a')
        (by simp)
    constructor
    · rw [generateTargets_succ, hσ []]
      simp only [findMarker, hc1, if_true, hw, appendLoop]
      rw [if_neg (by simp), ReplaceAll_cycle_one, (ih _ i j (hσ' 0)).2]
    · rw [generateTargets_succ, hσ []]
      simp only [findMarker, hc2, if_true, hw, appendLoop]
      rw [if_neg (by simp), ReplaceAll_cycle_two, (ih _ (i + 2) (j + 2) (hσ' 0)).1]

/-! ## The claims on `generateTargets` -/

theorem flatten_of_forall₂_singleton {f : GoString → GoString} :
    ∀ (ws : List GoString) (rss : List (List GoString)),
      List.Forall₂ (fun w rs => rs = [f w]) ws rss → rss.flatten = ws.map f := by
  intro ws rss h
  induction h with
  | nil => rfl
  | cons h _ ih => subst h; simp [ih]

/-- A template `p ++ m ++ q ++ m ++ r` whose only instances of `m` are the two
displayed ones becomes `p ++ w ++ q ++ w ++ r`. -/
theorem ReplaceAll_two_instances {m : GoString} (w p q r : GoString) (hm : m ≠ [])
    (hocc : ∀ i, m <+: (p ++ m ++ q ++ m ++ r).drop i ↔
      (i = p.length ∨ i = p.length + m.length + q.length)) :
    ReplaceAll (p ++ m ++ q ++ m ++ r) m w = p ++ w ++ q ++ w ++ r := by
  have hpos := List.length_pos.2 hm
  have e1 : p ++ m ++ q ++ m ++ r = p ++ (m ++ (q ++ (m ++ r))) := by simp
  have hp : ∀ i, i < p.length → ¬ m <+: (p ++ (m ++ (q ++ (m ++ r)))).drop i := by
    intro i hi h
    rw [← e1] at h
    rcases (hocc i).1 h with h1 | h1 <;> omega
  have hq : ∀ i, i < q.length → ¬ m <+: (q ++ (m ++ r)).drop i := by
    intro i hi h
    have e2 : (p ++ m ++ q ++ m ++ r).drop (p.length + m.length + i) =
        (q ++ (m ++ r)).drop i := by
      have : p ++ m ++ q ++ m ++ r = (p ++ m) ++ (q ++ (m ++ r)) := by simp
      rw [this, ← List.length_append, List.drop_append]
    rw [← e2] at h
    rcases (hocc _).1 h with h1 | h1 <;> omega
  have hr : ∀ i, i < r.length → ¬ m <+: (r ++ []).drop i := by
    intro i hi h
    have e3 : (p ++ m ++ q ++ m ++ r).drop (p.length + m.length + q.length + m.length + i) =
        (r ++ []).drop i := by
      have : p ++ m ++ q ++ m ++ r = (p ++ m ++ q ++ m) ++ (r ++ []) := by simp
      have hl : p.length + m.length + q.length + m.length = (p ++ m ++ q ++ m).length := by
        simp only [List.length_append]
      rw [this, hl, List.drop_append]
    rw [← e3] at h
    rcases (hocc _).1 h with h1 | h1 <;> omega
  have hrr : ReplaceAll r m w = r := by
    have := ReplaceAll_append_of_no_instance w hm [] r hr
    rw [ReplaceAll_nil w hm] at this
    simpa using this
  rw [e1, ReplaceAll_append_of_no_instance w hm _ p hp, ReplaceAll_instance w _ hm,
    ReplaceAll_append_of_no_instance w hm _ q hq, ReplaceAll_instance w _ hm, hrr]
  simp

/-- C1 (amended): when the keys are distinct and non-empty and either no
instance of a key can overlap an instance of another key or of a word, or no word
contains a key and every instance of a key in the template stands between
characters that occur in no key (or at an end of the template), `generateTargets`
returns, for every choice of iteration orders and every budget above the number
of keys, a list whose length is the product of the lengths of the word lists of
the markers that occur in the template, and no returned target contains a key. -/
theorem generateTargets_count (markers : WordlistData) (template : GoString)
    (σ : List Nat → List GoString) (fuel : Nat) (hA : Admissible markers template)
    (hσ : IterOrder markers σ) (hfuel : markers.length < fuel) :
    ∃ targets, generateTargets markers fuel σ template = some targets ∧
      targets.length = expansionCount markers template ∧
      ∀ target ∈ targets, ∀ m ∈ keys markers, Contains target m = false := by
  obtain ⟨rs, hrs, hperm⟩ := generateTargets_perm_of_admissible hA fuel σ hσ hfuel
  refine ⟨rs, hrs, ?_, absent_of_generateTargets hA.nonempty fuel σ template rs hσ hrs⟩
  rw [hperm.length_eq, length_cartesianTargets]

/-- C6 (amended): when the keys are distinct and non-empty and either no
instance of a key can overlap an instance of another key or of a word, or no word
contains a key and every instance of a key in the template stands between
characters that occur in no key (or at an end of the template), two evaluations
of `generateTargets` on the template under any two choices of iteration orders
return lists that are permutations of each other, and of the full Cartesian
product over the markers used. -/
theorem generateTargets_order_independent (markers : WordlistData) (template : GoString)
    (σ₁ σ₂ : List Nat → List GoString) (fuel₁ fuel₂ : Nat) (hA : Admissible markers template)
    (hσ₁ : IterOrder markers σ₁) (hσ₂ : IterOrder markers σ₂)
    (hfuel₁ : markers.length < fuel₁) (hfuel₂ : markers.length < fuel₂) :
    ∃ targets₁ targets₂,
      generateTargets markers fuel₁ σ₁ template = some targets₁ ∧
      generateTargets markers fuel₂ σ₂ template = some targets₂ ∧
      targets₁.Perm targets₂ ∧
      targets₁.Perm (cartesianTargets markers template) := by
  obtain ⟨rs₁, hrs₁, hperm₁⟩ := generateTargets_perm_of_admissible hA fuel₁ σ₁ hσ₁ hfuel₁
  obtain ⟨rs₂, hrs₂, hperm₂⟩ := generateTargets_perm_of_admissible hA fuel₂ σ₂ hσ₂ hfuel₂
  exact ⟨rs₁, rs₂, hrs₁, hrs₂, hperm₁.trans hperm₂.symm, hperm₁⟩

/-- C8: a template that contains no key of the mapping is returned as the only
target, under every iteration order and every positive budget. -/
theorem generateTargets_no_marker (markers : WordlistData) (template : GoString)
    (σ : List Nat → List GoString) (fuel : Nat) (hσ : IterOrder markers σ)
    (habsent : ∀ m ∈ keys markers, Contains template m = false) :
    generateTargets markers (fuel + 1) σ template = some [template] :=
  generateTargets_of_absent hσ fuel habsent

/-- C3: with a single non-empty marker `M` whose words are non-empty and share
no character with `M`, a template `p ++ M ++ q ++ M ++ r` in which `M` starts at
the two displayed positions only expands to the list of the
`p ++ w ++ q ++ w ++ r`, for `w` in the word list, in list order. -/
theorem generateTargets_lockstep (M : GoString) (ws : List GoString) (p q r : GoString)
    (σ : List Nat → List GoString) (fuel : Nat) (hM : M ≠ [])
    (hws : ∀ w ∈ ws, w ≠ [] ∧ ∀ c ∈ w, c ∉ M)
    (hσ : IterOrder [(M, ws)] σ)
    (hocc : ∀ i, M <+: (p ++ M ++ q ++ M ++ r).drop i ↔
      (i = p.length ∨ i = p.length + M.length + q.length)) :
    generateTargets [(M, ws)] (fuel + 2) σ (p ++ M ++ q ++ M ++ r) =
      some (ws.map (fun w => p ++ w ++ q ++ w ++ r)) := by
  have hσ' : ∀ path, σ path = [M] := fun path => List.perm_singleton.1 (hσ path)
  have hc : Contains (p ++ M ++ q ++ M ++ r) M = true :=
    Contains_of_eq_append p (q ++ M ++ r) (by simp)
  have hwords : wordsOf [(M, ws)] M = ws := by simp [wordsOf, List.lookup]
  rw [generateTargets_succ, hσ' []]
  simp only [findMarker, hc, if_true]
  rw [if_neg hM, hwords]
  have hcalls : ∀ j w, w ∈ ws →
      ∃ rs, generateTargets [(M, ws)] (fuel + 1) (fun path => σ (j :: path))
          (ReplaceAll (p ++ M ++ q ++ M ++ r) M w) = some rs ∧
        rs = [p ++ w ++ q ++ w ++ r] := by
    intro j w hw
    have habs := Contains_ReplaceAll_self hM (hws w hw).1 (hws w hw).2 (p ++ M ++ q ++ M ++ r)
    refine ⟨_, generateTargets_of_absent (hσ.shift j) fuel ?_, ?_⟩
    · intro m hm
      simp only [keys, List.map_cons, List.map_nil, List.mem_singleton] at hm
      rw [hm]; exact habs
    · rw [ReplaceAll_two_instances w p q r hM hocc]
  obtain ⟨rss, hrss, hall⟩ := appendLoop_of_forall
    (fun i word => generateTargets [(M, ws)] (fuel + 1) (fun path => σ (i :: path))
      (ReplaceAll (p ++ M ++ q ++ M ++ r) M word))
    (fun w rs => rs = [p ++ w ++ q ++ w ++ r]) ws 0 [] hcalls
  rw [hrss, flatten_of_forall₂_singleton (f := fun w => p ++ w ++ q ++ w ++ r) ws rss hall]
  rfl

/-- C10 (amended): when the keys are non-empty and no instance of a key can
begin inside a word (no word contains a key or ends with the beginning of one),
`generateTargets` returns under every choice of iteration orders as soon as
the budget exceeds the length of the template, and no returned target contains
a key. -/
theorem generateTargets_terminates (markers : WordlistData) (template : GoString)
    (σ : List Nat → List GoString) (fuel : Nat)
    (hne : ∀ m ∈ keys markers, m ≠ [])
    (hwords : ∀ e ∈ markers, ∀ w ∈ e.2, ∀ k ∈ keys markers, Apart k w)
    (hσ : IterOrder markers σ) (hfuel : template.length < fuel) :
    ∃ targets, generateTargets markers fuel σ template = some targets ∧
      ∀ target ∈ targets, ∀ m ∈ keys markers, Contains target m = false := by
  obtain ⟨rs, hrs⟩ := generateTargets_isSome hne hwords fuel σ template hσ
    (lt_of_le_of_lt (freeCount_le_length markers template) hfuel)
  exact ⟨rs, hrs, absent_of_generateTargets hne fuel σ template rs hσ hrs⟩

/-- C10 as stated fails: the marker `ab` is non-empty and its only word `bbaa`
does not contain it, yet on the template `aab` no budget is enough, since the
templates of the recursion are `abbaa`, `bbaabaa`, and so on for ever. -/
theorem generateTargets_diverges :
    (∀ m ∈ keys [("ab".toList, ["bbaa".toList])], m ≠ []) ∧
    (∀ e ∈ [("ab".toList, ["bbaa".toList])], ∀ w ∈ e.2,
      ∀ m ∈ keys [("ab".toList, ["bbaa".toList])], Contains w m = false) ∧
    (∀ (fuel : Nat) (σ : List Nat → List GoString),
      IterOrder [("ab".toList, ["bbaa".toList])] σ →
      generateTargets [("ab".toList, ["bbaa".toList])] fuel σ "aab".toList = none) := by
  refine ⟨by decide, by decide, ?_⟩
  intro fuel σ hσ
  have hσ' : ∀ path, σ path = [['a', 'b']] := fun path => List.perm_singleton.1 (hσ path)
  exact (generateTargets_cycle fuel σ 0 0 hσ').1

/-! ## The response filter, the extensions, the compatibility path, the ticker -/

theorem HasPrefix_iff (s pre : GoString) : HasPrefix s pre = true ↔ pre <+: s := by
  unfold HasPrefix; exact List.isPrefixOf_iff_prefix

theorem HasSuffix_iff (s suf : GoString) : HasSuffix s suf = true ↔ suf <:+ s := by
  unfold HasSuffix; rw [List.isPrefixOf_iff_prefix, List.reverse_prefix]

theorem containsInt_iff (list : List Int) (item : Int) :
    containsInt list item = true ↔ item ∈ list := by
  induction list with
  | nil => simp [containsInt]
  | cons v list ih =>
    by_cases h : v = item
    · simp [containsInt, h]
    · simp [containsInt, h, ih, Ne.symm h]

theorem containsInt64_iff (list : List Int) (item : Int) :
    containsInt64 list item = true ↔ item ∈ list := by
  induction list with
  | nil => simp [containsInt64]
  | cons v list ih =>
    by_cases h : v = item
    · simp [containsInt64, h]
    · simp [containsInt64, h, ih, Ne.symm h]

/-- C2: the worker reports a response exactly when its status code is among the
match codes and not among the filter codes and its content length is not among
the filter sizes; empty match codes reject everything, empty filters let
everything through; the four responses of the specification are classified as
it says. -/
theorem reportsFound_iff (matchCodes filterCodes filterSizes : List Int) (code size : Int) :
    (reportsFound matchCodes filterCodes filterSizes code size = true ↔
      code ∈ matchCodes ∧ code ∉ filterCodes ∧ size ∉ filterSizes) ∧
    reportsFound [] filterCodes filterSizes code size = false ∧
    (reportsFound matchCodes [] [] code size = true ↔ code ∈ matchCodes) ∧
    reportsFound [200, 301] [301] [0] 200 10 = true ∧
    reportsFound [200, 301] [301] [0] 301 10 = false ∧
    reportsFound [200, 301] [301] [0] 200 0 = false ∧
    reportsFound [200, 301] [301] [0] 404 10 = false := by
  have key : ∀ mc fc fs : List Int, (reportsFound mc fc fs code size = true ↔
      code ∈ mc ∧ code ∉ fc ∧ size ∉ fs) := by
    intro mc fc fs
    unfold reportsFound
    by_cases h1 : code ∈ mc
    · by_cases h2 : code ∈ fc
      · have : 0 < fc.length := List.length_pos_of_mem h2
        simp [(containsInt_iff _ _).2 h1, (containsInt_iff _ _).2 h2, h1, h2, this]
      · have h2' : containsInt fc code = false := by
          rw [Bool.eq_false_iff, Ne, containsInt_iff]; exact h2
        by_cases h3 : size ∈ fs
        · have : 0 < fs.length := List.length_pos_of_mem h3
          simp [(containsInt_iff _ _).2 h1, h2', (containsInt64_iff _ _).2 h3, h1, h2, h3, this]
        · have h3' : containsInt64 fs size = false := by
            rw [Bool.eq_false_iff, Ne, containsInt64_iff]; exact h3
          simp [(containsInt_iff _ _).2 h1, h2', h3', h1, h2, h3]
    · have h1' : containsInt mc code = false := by
        rw [Bool.eq_false_iff, Ne, containsInt_iff]; exact h1
      simp [h1', h1]
  refine ⟨key _ _ _, ?_, ?_, by decide, by decide, by decide, by decide⟩
  · rw [Bool.eq_false_iff, Ne, key]; simp
  · rw [key]; simp

theorem foldl_append_singleton {α β : Type} (g : α → β) :
    ∀ (l : List α) (acc : List β),
      l.foldl (fun acc x => acc ++ [g x]) acc = acc ++ l.map g := by
  intro l
  induction l with
  | nil => intro acc; simp
  | cons x l ih => intro acc; simp [ih]

theorem foldl_append_list {α β : Type} (g : α → List β) :
    ∀ (l : List α) (acc : List β),
      l.foldl (fun acc x => acc ++ g x) acc = acc ++ l.flatMap g := by
  intro l
  induction l with
  | nil => intro acc; simp
  | cons x l ih => intro acc; simp [ih]

theorem finalTargets_eq_flatMap (B E : List GoString) (hE : E ≠ []) :
    finalTargets B E =
      B.flatMap (fun tgt => E.map (fun ext => tgt ++ ".".toList ++ TrimPrefix ext ".".toList)) := by
  unfold finalTargets
  rw [if_pos (List.length_pos.2 hE)]
  have : (fun (acc : List GoString) (tgt : GoString) =>
      E.foldl (fun acc ext => acc ++ [tgt ++ ".".toList ++ TrimPrefix ext ".".toList]) acc) =
      (fun acc tgt =>
        acc ++ E.map (fun ext => tgt ++ ".".toList ++ TrimPrefix ext ".".toList)) := by
    funext acc tgt
    exact foldl_append_singleton _ E acc
  rw [this, foldl_append_list]
  simp

/-- An extension that does not start with two dots starts with no dot once
one leading dot is removed. -/
theorem TrimPrefix_dot_no_dot (ext : GoString) (h : HasPrefix ext "..".toList = false) :
    HasPrefix (TrimPrefix ext ".".toList) ".".toList = false := by
  unfold TrimPrefix
  cases ext with
  | nil => rfl
  | cons c ext =>
    by_cases hc : c = '.'
    · subst hc
      cases ext with
      | nil => rfl
      | cons d ext =>
        by_cases hd : d = '.'
        · subst hd
          simp [HasPrefix, List.isPrefixOf] at h
        · have hd' : ¬ '.' = d := fun h => hd h.symm
          simp [HasPrefix, List.isPrefixOf, hd']
    · have hc' : ¬ '.' = c := fun h => hc h.symm
      simp [HasPrefix, List.isPrefixOf, hc']

/-- C4 (amended): for a non-empty list of extensions, the final targets are, in
base-major order, the strings `tgt ++ "." ++ ext'` with `ext'` the extension
without one leading dot, so there are `|B| * |E|` of them; the dot put between
`tgt` and `ext'` has no dot right before it and none right after it whenever the
base target does not end with a dot and the extension does not start with two
dots; base targets `A`, `B` with extensions `php`, `./html` give the four targets
displayed. -/
theorem finalTargets_spec (B E : List GoString) (hE : E ≠ []) :
    finalTargets B E =
      B.flatMap (fun tgt => E.map (fun ext => tgt ++ ".".toList ++ TrimPrefix ext ".".toList)) ∧
    (finalTargets B E).length = B.length * E.length ∧
    (∀ tgt ∈ B, ∀ ext ∈ E, HasSuffix tgt ".".toList = false →
      HasPrefix ext "..".toList = false →
      HasSuffix (tgt ++ ".".toList) "..".toList = false ∧
      HasPrefix (".".toList ++ TrimPrefix ext ".".toList) "..".toList = false) ∧
    finalTargets ["A".toList, "B".toList] (parseStringList "php,./html".toList) =
      ["A.php".toList, "A./html".toList, "B.php".toList, "B./html".toList] := by
  refine ⟨finalTargets_eq_flatMap B E hE, ?_, ?_, by decide⟩
  · rw [finalTargets_eq_flatMap B E hE, List.length_flatMap]
    have : List.map (List.length ∘ fun tgt =>
        E.map (fun ext => tgt ++ ".".toList ++ TrimPrefix ext ".".toList)) B =
        List.replicate B.length E.length := by
      rw [List.eq_replicate_iff]
      refine ⟨by simp, ?_⟩
      intro b hb
      obtain ⟨w, _, rfl⟩ := List.mem_map.1 hb
      simp
    rw [this, List.sum_replicate, smul_eq_mul]
  · intro tgt _ ext _ htgt hext
    constructor
    · rw [Bool.eq_false_iff, Ne, HasSuffix_iff] at htgt ⊢
      rintro ⟨l, hl⟩
      apply htgt
      refine ⟨l, ?_⟩
      have h2 : (l ++ ".".toList) ++ ".".toList = tgt ++ ".".toList := by
        rw [← hl]; simp
      exact (List.append_left_inj _).1 h2
    · have h1 := TrimPrefix_dot_no_dot ext hext
      rw [Bool.eq_false_iff, Ne, HasPrefix_iff] at h1 ⊢
      intro h2
      apply h1
      have h3 : ".".toList ++ ".".toList <+: ".".toList ++ TrimPrefix ext ".".toList := h2
      exact (List.prefix_append_right_inj _).1 h3

/-- C4 as stated fails: `..php` is an extension `parseStringList` returns, and
the target built from base `A` is `A..php`, with a doubled dot; so is the target
built from the base `A.` and the extension `php`. -/
theorem finalTargets_doubled_dot :
    parseStringList "..php".toList = ["..php".toList] ∧
    finalTargets ["A".toList] (parseStringList "..php".toList) = ["A..php".toList] ∧
    finalTargets ["A.".toList] (parseStringList "php".toList) = ["A..php".toList] := by
  decide

theorem TrimSuffix_append (l suf : GoString) : TrimSuffix (l ++ suf) suf = l := by
  unfold TrimSuffix
  rw [if_pos ((HasSuffix_iff _ _).2 ⟨l, rfl⟩)]
  simp

theorem TrimSuffix_of_not_suffix {s suf : GoString} (h : ¬ suf <:+ s) : TrimSuffix s suf = s := by
  unfold TrimSuffix
  rw [if_neg (fun h' => h ((HasSuffix_iff _ _).1 h'))]

/-- Removing one trailing slash leaves no trailing slash unless there were two. -/
theorem not_suffix_TrimSuffix_slash (s : GoString) (h : ¬ "//".toList <:+ s) :
    ¬ "/".toList <:+ TrimSuffix s "/".toList := by
  by_cases h1 : "/".toList <:+ s
  · obtain ⟨l, rfl⟩ := h1
    rw [TrimSuffix_append]
    rintro ⟨l', rfl⟩
    exact h ⟨l', by simp⟩
  · rw [TrimSuffix_of_not_suffix h1]; exact h1

/-- A proper prefix survives the removal of a trailing slash. -/
theorem prefix_TrimSuffix_slash {s pre : GoString} (h : pre <+: s) (hlen : pre.length < s.length) :
    pre <+: TrimSuffix s "/".toList := by
  unfold TrimSuffix
  split
  · rw [List.prefix_take_iff]
    refine ⟨h, ?_⟩
    have : "/".toList.length = 1 := rfl
    omega
  · exact h

theorem length_lt_of_prefix_ne {s pre : GoString} (h : pre <+: s) (hne : s ≠ pre) :
    pre.length < s.length := by
  rcases Nat.lt_or_ge pre.length s.length with h1 | h1
  · exact h1
  · exact absurd (h.eq_of_length (Nat.le_antisymm h.length_le h1)).symm hne

theorem compatTargets_eq_map (targetURL : GoString) (lines : List GoString) :
    compatTargets targetURL lines = lines.map (fun word => targetURL ++ "/".toList ++ word) := by
  unfold compatTargets
  rw [foldl_append_singleton]
  rfl

theorem hasMarkers_eq_false {targetURL : GoString} {wordlistData : WordlistData}
    (h : ∀ m ∈ keys wordlistData, Contains targetURL m = false) :
    hasMarkers targetURL wordlistData = false := by
  unfold hasMarkers
  rw [List.any_eq_false]
  intro m hm
  simp [h m hm]

/-- C5 (amended): for a URL that contains no key of the mapping and either
does not start with `http` or starts with `http://` or `https://`, and a word
list `ws` registered for `WL1`, the base targets are the `u' ++ "/" ++ w` for `w`
in `ws`, in list order, where `u'` is the URL, with `http://` in front when it
does not start with `http`, and without one trailing slash; `u'` does not end
with a slash unless the URL (after the scheme was put in front) ends with two;
`u'` starts with `http://` or `https://` unless the URL is empty or is nothing
but one of the two schemes. -/
theorem baseTargets_compat (fuel : Nat) (σ : List Nat → List GoString)
    (targetURL : GoString) (wordlistData : WordlistData) (ws : List GoString)
    (habsent : ∀ m ∈ keys wordlistData, Contains targetURL m = false)
    (hwl : wordlistData.lookup "WL1".toList = some ws)
    (hscheme : HasPrefix targetURL "http".toList = false ∨
      HasPrefix targetURL "http://".toList = true ∨
      HasPrefix targetURL "https://".toList = true) :
    baseTargets fuel σ targetURL wordlistData =
      some (ws.map (fun w => normalizeURL targetURL ++ "/".toList ++ w)) ∧
    (HasSuffix (ensureScheme targetURL) "//".toList = false →
      HasSuffix (normalizeURL targetURL) "/".toList = false) ∧
    (targetURL ≠ [] → targetURL ≠ "http://".toList → targetURL ≠ "https://".toList →
      HasPrefix (normalizeURL targetURL) "http://".toList = true ∨
      HasPrefix (normalizeURL targetURL) "https://".toList = true) := by
  refine ⟨?_, ?_, ?_⟩
  · unfold baseTargets
    rw [hasMarkers_eq_false habsent]
    simp only [Bool.false_eq_true, if_false, hwl, compatTargets_eq_map]
  · intro h
    rw [Bool.eq_false_iff, Ne, HasSuffix_iff] at h ⊢
    exact not_suffix_TrimSuffix_slash _ h
  · have hhttp : ∀ s : GoString, "http://".toList <+: s → HasPrefix s "http".toList = true := by
      intro s hs
      rw [HasPrefix_iff]
      exact List.IsPrefix.trans ⟨"://".toList, rfl⟩ hs
    have hhttps : ∀ s : GoString, "https://".toList <+: s → HasPrefix s "http".toList = true := by
      intro s hs
      rw [HasPrefix_iff]
      exact List.IsPrefix.trans ⟨"s://".toList, rfl⟩ hs
    intro h0 h2 h3
    rcases hscheme with h1 | h1 | h1
    · left
      rw [HasPrefix_iff]
      unfold normalizeURL ensureScheme
      simp only [h1, Bool.not_false, if_true]
      apply prefix_TrimSuffix_slash ⟨targetURL, rfl⟩
      have := List.length_pos.2 h0
      simp only [List.length_append]
      omega
    · left
      rw [HasPrefix_iff] at h1 ⊢
      unfold normalizeURL ensureScheme
      simp only [hhttp _ h1, Bool.not_true, Bool.false_eq_true, if_false]
      exact prefix_TrimSuffix_slash h1 (length_lt_of_prefix_ne h1 h2)
    · right
      rw [HasPrefix_iff] at h1 ⊢
      unfold normalizeURL ensureScheme
      simp only [hhttps _ h1, Bool.not_true, Bool.false_eq_true, if_false]
      exact prefix_TrimSuffix_slash h1 (length_lt_of_prefix_ne h1 h3)

/-- C5 as stated fails: the URL `http://example.com//` contains no marker, and
the base target built for the word `admin` is `http://example.com//admin`; the
normalized URL is `http://example.com/`, which ends with a slash, and no string
without a trailing slash gives that target. -/
theorem baseTargets_trailing_slash :
    hasMarkers "http://example.com//".toList [("WL1".toList, ["admin".toList])] = false ∧
    baseTargets 0 (constOrder []) "http://example.com//".toList
        [("WL1".toList, ["admin".toList])] = some ["http://example.com//admin".toList] ∧
    normalizeURL "http://example.com//".toList = "http://example.com/".toList ∧
    ¬ ∃ u : GoString, HasSuffix u "/".toList = false ∧
      baseTargets 0 (constOrder []) "http://example.com//".toList
        [("WL1".toList, ["admin".toList])] =
        some (["admin".toList].map (fun w => u ++ "/".toList ++ w)) := by
  refine ⟨by decide, by decide, by decide, ?_⟩
  rintro ⟨u, h1, h2⟩
  have h3 : baseTargets 0 (constOrder []) "http://example.com//".toList
      [("WL1".toList, ["admin".toList])] =
      some ["http://example.com/".toList ++ "/".toList ++ "admin".toList] := by decide
  rw [h3] at h2
  simp only [List.map_cons, List.map_nil, Option.some.injEq, List.cons.injEq, and_true] at h2
  have h4 : u = "http://example.com/".toList :=
    (List.append_left_inj _).1 ((List.append_left_inj _).1 h2.symm)
  rw [h4] at h1
  exact absurd h1 (by decide)

/-- A URL that starts with `http` without being a scheme, such as the host
`httpbin.org`, is left without a scheme by lines 312-315. -/
theorem normalizeURL_httpbin :
    normalizeURL "httpbin.org".toList = "httpbin.org".toList ∧
    baseTargets 0 (constOrder []) "httpbin.org".toList [("WL1".toList, ["admin".toList])] =
      some ["httpbin.org/admin".toList] := by
  decide

/-! ## The period of the ticker -/

theorem tickerPeriod_eq_ediv {rateLimit : Int} (h : 1 ≤ rateLimit) :
    tickerPeriod rateLimit = timeSecond / rateLimit := by
  unfold tickerPeriod
  exact Int.tdiv_eq_ediv (by decide) (by omega)

theorem tickerPeriod_pos {rateLimit : Int} (h1 : 1 ≤ rateLimit) (h2 : rateLimit ≤ timeSecond) :
    0 < tickerPeriod rateLimit := by
  rw [tickerPeriod_eq_ediv h1]
  have : (1 : Int) ≤ timeSecond / rateLimit :=
    Int.le_ediv_of_mul_le (by omega) (by omega)
  omega

/-- C7 (amended): for a rate limit `R` with `1 ≤ R ≤ 10^9` the period
`time.Second / time.Duration(R)` of the ticker is `10^9 / R` nanoseconds, rounded
down, and positive; `n` periods are at most `n / R` seconds and fall short of
them by at most `n * (R - 1) / R` nanoseconds, and they are exactly `n / R`
seconds when `R` divides `10^9`; for `n = 100` and `R = 50` they are two
seconds. -/
theorem tickerPeriod_rate_bound (rateLimit : Int) (n : Nat)
    (h1 : 1 ≤ rateLimit) (h2 : rateLimit ≤ timeSecond) :
    tickerPeriod rateLimit = timeSecond / rateLimit ∧
    0 < tickerPeriod rateLimit ∧
    (n * tickerPeriod rateLimit) * rateLimit ≤ n * timeSecond ∧
    n * timeSecond ≤ (n * tickerPeriod rateLimit) * rateLimit + n * (rateLimit - 1) ∧
    (rateLimit ∣ timeSecond → (n * tickerPeriod rateLimit) * rateLimit = n * timeSecond) ∧
    (100 : Int) * tickerPeriod 50 = 2 * timeSecond := by
  have hpos := tickerPeriod_pos h1 h2
  have hdiv := Int.ediv_add_emod' timeSecond rateLimit
  have hr0 : 0 ≤ timeSecond % rateLimit := Int.emod_nonneg _ (by omega)
  have hr1 : timeSecond % rateLimit < rateLimit := Int.emod_lt_of_pos _ (by omega)
  have hn : (0 : Int) ≤ n := Int.ofNat_nonneg n
  refine ⟨tickerPeriod_eq_ediv h1, hpos, ?_, ?_, ?_, ?_⟩
  · rw [tickerPeriod_eq_ediv h1]
    have : (n : Int) * (timeSecond / rateLimit * rateLimit) ≤ n * timeSecond :=
      mul_le_mul_of_nonneg_left (by omega) hn
    linarith
  · rw [tickerPeriod_eq_ediv h1]
    have : (n : Int) * (timeSecond % rateLimit) ≤ n * (rateLimit - 1) :=
      mul_le_mul_of_nonneg_left (by omega) hn
    have h3 : (n : Int) * timeSecond =
        n * (timeSecond / rateLimit * rateLimit) + n * (timeSecond % rateLimit) := by
      rw [← mul_add, hdiv]
    linarith
  · intro hd
    rw [tickerPeriod_eq_ediv h1, mul_assoc, Int.ediv_mul_cancel hd]
  · rw [tickerPeriod_eq_ediv (by decide)]
    rfl

/-- C7 as stated fails: at rate limit 3 the period is 333333333 ns, so three
periods are 999999999 ns, less than the `3 * 10^9 / 3` ns of the claim; and at a
rate limit above `10^9` the period is 0. -/
theorem tickerPeriod_below_bound :
    tickerPeriod 3 = 333333333 ∧
    (3 : Int) * tickerPeriod 3 = 999999999 ∧
    ¬ ((3 : Int) * tickerPeriod 3 ≥ 3 * timeSecond / 3) ∧
    tickerPeriod 2000000000 = 0 := by
  have h3 : tickerPeriod 3 = 333333333 := by
    rw [tickerPeriod_eq_ediv (by decide)]; rfl
  refine ⟨h3, ?_, ?_, ?_⟩
  · rw [h3]; rfl
  · rw [h3]; unfold timeSecond; norm_num
  · rw [tickerPeriod_eq_ediv (by decide)]; rfl

/-! ## Concrete instances -/

/-- C1 as stated fails, in four ways.  Keys that overlap: `WL1` and `WL11` both
occur in the template `WL11`, with one and two words, so two targets are
promised; with `WL1` visited first the only target is `a1`.  A word that ends a
key: only `XY`, with the one word `1`, occurs in the template `WLXY`, so one
target is promised; the replacement gives `WL1`, which is expanded to `a` and
`b`.  A word that begins a key: only `XY`, with the one word `xW`, occurs in the
template `XYL1`; the replacement gives `xWL1`, which is expanded to `xa` and
`xb`.  The empty key: it occurs in every template, and when it is visited first
the template `WL1` is returned with its marker, one target where two are
promised. -/
theorem generateTargets_count_fails :
    (IterOrder overlappingKeys (constOrder ["WL1".toList, "WL11".toList]) ∧
      expansionCount overlappingKeys "WL11".toList = 2 ∧
      generateTargets overlappingKeys 3 (constOrder ["WL1".toList, "WL11".toList])
        "WL11".toList = some ["a1".toList]) ∧
    (IterOrder wordMeetingKey (constOrder ["WL1".toList, "XY".toList]) ∧
      expansionCount wordMeetingKey "WLXY".toList = 1 ∧
      generateTargets wordMeetingKey 3 (constOrder ["WL1".toList, "XY".toList])
        "WLXY".toList = some ["a".toList, "b".toList]) ∧
    (IterOrder wordBeginningKey (constOrder ["WL1".toList, "XY".toList]) ∧
      expansionCount wordBeginningKey "XYL1".toList = 1 ∧
      generateTargets wordBeginningKey 3 (constOrder ["WL1".toList, "XY".toList])
        "XYL1".toList = some ["xa".toList, "xb".toList]) ∧
    (IterOrder withEmptyKey (constOrder ["".toList, "WL1".toList]) ∧
      expansionCount withEmptyKey "WL1".toList = 2 ∧
      generateTargets withEmptyKey 3 (constOrder ["".toList, "WL1".toList])
        "WL1".toList = some ["WL1".toList] ∧
      Contains "WL1".toList "WL1".toList = true) := by
  refine ⟨⟨fun _ => List.Perm.refl _, by decide, by decide⟩,
    ⟨fun _ => List.Perm.refl _, by decide, by decide⟩,
    ⟨fun _ => List.Perm.refl _, by decide, by decide⟩,
    ⟨fun _ => List.Perm.refl _, by decide, by decide, by decide⟩⟩

/-- An instance of the count of targets: the markers `WL1`, with the words `1`,
`10` and `admin`, and `WL2`, with two words, on a template in which both stand
between characters of no key. -/
theorem generateTargets_count_witness :
    Admissible numericWordlists "http://WL1.host/WL2".toList ∧
    ∃ targets,
      generateTargets numericWordlists 3 (constOrder ["WL1".toList, "WL2".toList])
        "http://WL1.host/WL2".toList = some targets ∧
      targets.length = expansionCount numericWordlists "http://WL1.host/WL2".toList ∧
      ∀ target ∈ targets, ∀ m ∈ keys numericWordlists, Contains target m = false :=
  ⟨⟨by decide, by decide, Or.inr (by decide)⟩,
    generateTargets_count numericWordlists "http://WL1.host/WL2".toList
      (constOrder ["WL1".toList, "WL2".toList]) 3
      ⟨by decide, by decide, Or.inr (by decide)⟩
      (fun _ => List.Perm.refl _) (by decide)⟩

/-- C6 as stated fails, in four ways.  Keys that overlap: with `WL1` and `WL11`
and the template `WL1/WL11`, visiting `WL1` first gives `a/a1` alone, and `WL11`
first gives `a/b` and `a/c`.  A word that ends a key: with the word `1` for `XY`
and the template `WLXY/WL1`, visiting `XY` first gives `a/a` and `b/b`, and `WL1`
first gives four targets.  A word that begins a key: with the word `xW` for `XY`
and the template `XYL1/WL1`, visiting `XY` first gives `xa/a` and `xb/b`, and
`WL1` first gives four targets.  The empty key: visited first it returns the
template `WL1`, visited second it lets `WL1` be expanded to `a` and `b`. -/
theorem generateTargets_order_dependent :
    (IterOrder overlappingKeys (constOrder ["WL1".toList, "WL11".toList]) ∧
      IterOrder overlappingKeys (constOrder ["WL11".toList, "WL1".toList]) ∧
      generateTargets overlappingKeys 3 (constOrder ["WL1".toList, "WL11".toList])
        "WL1/WL11".toList = some ["a/a1".toList] ∧
      generateTargets overlappingKeys 3 (constOrder ["WL11".toList, "WL1".toList])
        "WL1/WL11".toList =
        some ["a/b".toList, "a/c".toList] ∧
      ¬ List.Perm ["a/a1".toList] ["a/b".toList, "a/c".toList]) ∧
    (IterOrder wordMeetingKey (constOrder ["XY".toList, "WL1".toList]) ∧
      IterOrder wordMeetingKey (constOrder ["WL1".toList, "XY".toList]) ∧
      generateTargets wordMeetingKey 4 (constOrder ["XY".toList, "WL1".toList])
        "WLXY/WL1".toList =
        some ["a/a".toList, "b/b".toList] ∧
      generateTargets wordMeetingKey 4 (constOrder ["WL1".toList, "XY".toList])
        "WLXY/WL1".toList =
        some ["a/a".toList, "b/a".toList, "a/b".toList, "b/b".toList] ∧
      ¬ List.Perm ["a/a".toList, "b/b".toList]
        ["a/a".toList, "b/a".toList, "a/b".toList, "b/b".toList]) ∧
    (IterOrder wordBeginningKey (constOrder ["XY".toList, "WL1".toList]) ∧
      IterOrder wordBeginningKey (constOrder ["WL1".toList, "XY".toList]) ∧
      generateTargets wordBeginningKey 4 (constOrder ["XY".toList, "WL1".toList])
        "XYL1/WL1".toList =
        some ["xa/a".toList, "xb/b".toList] ∧
      generateTargets wordBeginningKey 4 (constOrder ["WL1".toList, "XY".toList])
        "XYL1/WL1".toList =
        some ["xa/a".toList, "xb/a".toList, "xa/b".toList, "xb/b".toList] ∧
      ¬ List.Perm ["xa/a".toList, "xb/b".toList]
        ["xa/a".toList, "xb/a".toList, "xa/b".toList, "xb/b".toList]) ∧
    (IterOrder withEmptyKey (constOrder ["".toList, "WL1".toList]) ∧
      IterOrder withEmptyKey (constOrder ["WL1".toList, "".toList]) ∧
      generateTargets withEmptyKey 3 (constOrder ["".toList, "WL1".toList])
        "WL1".toList = some ["WL1".toList] ∧
      generateTargets withEmptyKey 3 (constOrder ["WL1".toList, "".toList])
        "WL1".toList = some ["a".toList, "b".toList] ∧
      ¬ List.Perm ["WL1".toList] ["a".toList, "b".toList]) := by
  refine ⟨⟨fun _ => List.Perm.refl _, fun _ => List.Perm.swap _ _ _, by decide, by decide,
      by decide⟩,
    ⟨fun _ => List.Perm.swap _ _ _, fun _ => List.Perm.refl _, by decide, by decide,
      by decide⟩,
    ⟨fun _ => List.Perm.swap _ _ _, fun _ => List.Perm.refl _, by decide, by decide,
      by decide⟩,
    ⟨fun _ => List.Perm.refl _, fun _ => List.Perm.swap _ _ _, by decide, by decide,
      by decide⟩⟩

/-- An instance of the independence of the order: the markers `WL1`, with the
words `ns1`, `v1` and `LICENSE`, and `WL2`, visited in the two possible orders. -/
theorem generateTargets_order_independent_witness :
    Admissible sampleWordlists "WL1/WL2".toList ∧
    ∃ targets₁ targets₂,
      generateTargets sampleWordlists 3 (constOrder ["WL1".toList, "WL2".toList])
        "WL1/WL2".toList = some targets₁ ∧
      generateTargets sampleWordlists 4 (constOrder ["WL2".toList, "WL1".toList])
        "WL1/WL2".toList = some targets₂ ∧
      targets₁.Perm targets₂ ∧
      targets₁.Perm (cartesianTargets sampleWordlists "WL1/WL2".toList) :=
  ⟨⟨by decide, by decide, Or.inl (by decide)⟩,
    generateTargets_order_independent sampleWordlists "WL1/WL2".toList
      (constOrder ["WL1".toList, "WL2".toList]) (constOrder ["WL2".toList, "WL1".toList]) 3 4
      ⟨by decide, by decide, Or.inl (by decide)⟩
      (fun _ => List.Perm.refl _) (fun _ => List.Perm.swap _ _ _) (by decide) (by decide)⟩

/-- An instance of the passthrough: the template `example.com` and the
marker `WL1`. -/
theorem generateTargets_no_marker_witness :
    (∀ m ∈ keys [("WL1".toList, ["a".toList])], Contains "example.com".toList m = false) ∧
    generateTargets [("WL1".toList, ["a".toList])] 1 (constOrder ["WL1".toList])
      "example.com".toList = some ["example.com".toList] :=
  ⟨by decide,
    generateTargets_no_marker [("WL1".toList, ["a".toList])] "example.com".toList
      (constOrder ["WL1".toList]) 0 (fun _ => List.Perm.refl _) (by decide)⟩

/-- An instance of the lockstep substitution: the marker `WL` twice in `xWL.WL/`. -/
theorem generateTargets_lockstep_witness :
    generateTargets [("WL".toList, ["a".toList, "b".toList])] 2 (constOrder ["WL".toList])
      ("x".toList ++ "WL".toList ++ ".".toList ++ "WL".toList ++ "/".toList) =
      some (["a".toList, "b".toList].map
        (fun w => "x".toList ++ w ++ ".".toList ++ w ++ "/".toList)) :=
  generateTargets_lockstep "WL".toList ["a".toList, "b".toList] "x".toList ".".toList
    "/".toList (constOrder ["WL".toList]) 0 (by decide) (by decide)
    (fun _ => List.Perm.refl _)
    (by
      intro i
      rcases Nat.lt_or_ge i 8 with h | h
      · interval_cases i <;> decide
      · have hd : List.drop i
            ("x".toList ++ "WL".toList ++ ".".toList ++ "WL".toList ++ "/".toList) = [] :=
          List.drop_of_length_le (by simpa using by omega)
        rw [hd]
        constructor
        · intro h'
          exact absurd (List.prefix_nil.1 h') (by decide)
        · intro h'
          have h1 : "x".toList.length = 1 := rfl
          have h2 : "WL".toList.length = 2 := rfl
          have h3 : ".".toList.length = 1 := rfl
          omega)

/-- An instance of termination: the overlapping keys `WL1` and `WL11`, with the
words `v1`, `ns1`, `Web` and `LICENSE`, on the template `WL11/WL1`, of length 8. -/
theorem generateTargets_terminates_witness :
    ∃ targets,
      generateTargets overlappingWordlists 9 (constOrder ["WL1".toList, "WL11".toList])
        "WL11/WL1".toList = some targets ∧
      ∀ target ∈ targets, ∀ m ∈ keys overlappingWordlists, Contains target m = false :=
  generateTargets_terminates overlappingWordlists "WL11/WL1".toList
    (constOrder ["WL1".toList, "WL11".toList]) 9
    (by decide) (by decide) (fun _ => List.Perm.refl _) (by decide)

/-- An instance of the extension expansion: base targets `A`, `B` and the
extensions `php`, `./html`. -/
theorem finalTargets_spec_witness :
    (finalTargets ["A".toList, "B".toList] ["php".toList, "./html".toList]).length = 2 * 2 :=
  (finalTargets_spec ["A".toList, "B".toList] ["php".toList, "./html".toList] (by decide)).2.1

/-- An instance of the compatibility path: the URL `example.com/` and two words. -/
theorem baseTargets_compat_witness :
    baseTargets 0 (constOrder []) "example.com/".toList
        [("WL1".toList, ["admin".toList, "login".toList])] =
      some (["admin".toList, "login".toList].map
        (fun w => normalizeURL "example.com/".toList ++ "/".toList ++ w)) :=
  (baseTargets_compat 0 (constOrder []) "example.com/".toList
    [("WL1".toList, ["admin".toList, "login".toList])] ["admin".toList, "login".toList]
    (by decide) (by decide) (by decide)).1

/-- An instance of the bound on the period: 100 periods at 50 requests per
second. -/
theorem tickerPeriod_rate_bound_witness :
    (((100 : Nat) : Int) * tickerPeriod 50) * 50 ≤ ((100 : Nat) : Int) * timeSecond :=
  (tickerPeriod_rate_bound 50 100 (by decide) (by decide)).2.2.1

end Pathfinder
